import Mathlib

/-!
Verification development for the HOPI repository (R-tree spatial index,
RCB partitioner, rendezvous support structures).

The C++ sources are embedded shallowly:

* floating point coordinates are modelled as rationals;
* the sentinel "reset" state of a bounding box (min = +huge, max = -huge,
  produced by Box::reset) is modelled as the value none of Option (Box n):
  for every coordinate actually occurring in a run, the sentinel behaves as
  the identity of the stretch operation, which is exactly what none gives;
* the nexttoward nudges of Box::next_larger are modelled by explicit
  parameters (down, up) required to move strictly outward;
* C++ undefined behaviour (dereferencing an invalid iterator, reading past
  the end of a vector, std::get on the wrong variant alternative, failing
  assertions in paths that are unconditionally wrong) is modelled by
  returning none from an Option valued function;
* pointer equality of child nodes is modelled positionally: container
  operations that act on one specific child act on a list index.
-/

namespace HOPI

open scoped List

/-! ## Bounding box (src/library/hopi/spatial/bound/box.hpp) -/

/-- Axis aligned box in n dimensions, fields named after Box::min_ / Box::max_. -/
structure Box (n : ℕ) where
  min : Fin n → ℚ
  max : Fin n → ℚ

instance {n : ℕ} : DecidableEq (Box n) := fun a b =>
  decidable_of_iff (a.min = b.min ∧ a.max = b.max) (by
    cases a; cases b; simp)

namespace Box

variable {n : ℕ}

/-- Box::length. -/
def length (b : Box n) (i : Fin n) : ℚ := b.max i - b.min i

/-- Box::center. -/
def center (b : Box n) (i : Fin n) : ℚ := (1/2 : ℚ) * (b.max i + b.min i)

/-- Box::area: product of the side lengths. -/
def area (b : Box n) : ℚ := ∏ i : Fin n, (b.max i - b.min i)

/-- Box::stretch: componentwise min of mins and max of maxes. -/
def stretch (a b : Box n) : Box n :=
  ⟨fun i => Min.min (a.min i) (b.min i), fun i => Max.max (a.max i) (b.max i)⟩

/-- Box::longest_dimension: index of the largest side length, ties to the
lower index (strict improvement scan from index 0). -/
def longest_dimension [NeZero n] (b : Box n) : Fin n :=
  (List.finRange n).foldl
    (fun ans i => if b.length ans < b.length i then i else ans)
    ⟨0, Nat.pos_of_ne_zero (NeZero.ne n)⟩

/-- The less comparator nested in Box (returns true as soon as one dimension
has a strictly smaller min; not a strict weak order in general). -/
def less (a b : Box n) : Bool :=
  decide (∃ i : Fin n, a.min i < b.min i)

end Box

/-- Free function Contains(a, b). -/
def Contains {n : ℕ} (a b : Box n) : Prop :=
  (∀ i, a.min i ≤ b.min i) ∧ (∀ i, a.max i ≥ b.max i)

instance {n : ℕ} (a b : Box n) : Decidable (Contains a b) := by
  unfold Contains; infer_instance

/-- Free function ContainsNonInclusive(a, b): strict on the max side. -/
def ContainsNonInclusive {n : ℕ} (a b : Box n) : Prop :=
  (∀ i, a.min i ≤ b.min i) ∧ (∀ i, a.max i > b.max i)

instance {n : ℕ} (a b : Box n) : Decidable (ContainsNonInclusive a b) := by
  unfold ContainsNonInclusive; infer_instance

/-- Free function Intersects(a, b): closed interval overlap everywhere. -/
def Intersects {n : ℕ} (a b : Box n) : Prop :=
  (∀ i, a.min i ≤ b.max i) ∧ (∀ i, a.max i ≥ b.min i)

instance {n : ℕ} (a b : Box n) : Decidable (Intersects a b) := by
  unfold Intersects; infer_instance

/-- Free function Union(a, b) = copy of a stretched by b. -/
def Union {n : ℕ} (a b : Box n) : Box n := a.stretch b

/-- Free function Nearest(a, b): squared Euclidean distance between closest
points, written exactly as the per dimension clamps of the source. -/
def Nearest {n : ℕ} (a b : Box n) : ℚ :=
  ∑ i : Fin n,
    (Max.max (Max.max (0 : ℚ) (b.min i - a.max i)) (Max.max (0 : ℚ) (a.min i - b.max i))) ^ 2

/-- Free function IncreaseToHold(a, b) = area(Union(a,b)) - area(a). -/
def IncreaseToHold {n : ℕ} (a b : Box n) : ℚ := (Union a b).area - a.area

/-! ## R-tree nodes (src/library/hopi/spatial/shared/index/rtree/{node,page,leaf}.hpp)

A node is a leaf carrying one value or a page carrying a cached bound and an
ordered child list.  The parent back pointer of the source is represented by
the recursion structure itself.  A page bound in the reset state (Box::reset,
written by Node::Node through restretch) is the value none. -/

/-- R-tree node: the std::variant of Leaf and Page. -/
inductive RNode (V : Type) (n : ℕ) where
  | leaf (v : V)
  | page (bound : Option (Box n)) (children : List (RNode V n))

namespace RNode

variable {V : Type} {n : ℕ}

/-- Node::isLeaf. -/
def isLeaf : RNode V n → Bool
  | .leaf _ => true
  | .page _ _ => false

/-- Leaf payload, when the node is a leaf. -/
def leafVal? : RNode V n → Option V
  | .leaf v => some v
  | .page _ _ => none

/-- Child list of a page (empty for a leaf). -/
def children : RNode V n → List (RNode V n)
  | .leaf _ => []
  | .page _ cs => cs

/-- Node::size: zero for a leaf, the child count for a page. -/
def childCount : RNode V n → ℕ
  | .leaf _ => 0
  | .page _ cs => cs.length

/- Total number of nodes in the subtree; used as fuel / termination measure. -/
mutual
def sizeN : RNode V n → ℕ
  | .leaf _ => 1
  | .page _ cs => 1 + sizeNL cs
def sizeNL : List (RNode V n) → ℕ
  | [] => 0
  | c :: cs => sizeN c + sizeNL cs
end

/- Values stored in the subtree, in left to right order. -/
mutual
def leaves : RNode V n → List V
  | .leaf v => [v]
  | .page _ cs => leavesL cs
def leavesL : List (RNode V n) → List V
  | [] => []
  | c :: cs => leaves c ++ leavesL cs
end

end RNode

section TreeAlgorithm

variable {V : Type} {n : ℕ}

/-- Node::getBound: the extracted bound of a leaf value, or the cached page
bound (none when the page bound is in the reset state). -/
def nbound (getB : V → Box n) : RNode V n → Option (Box n)
  | .leaf v => some (getB v)
  | .page b _ => b

/-- Page::stretch lifted to the reset sentinel: stretching a reset bound by a
real box yields that box, and stretching by a reset bound is the identity
(the reset corners are the extreme representable values in the source, which
act as the identity for every coordinate a run can contain). -/
def optUnion : Option (Box n) → Option (Box n) → Option (Box n)
  | none, b => b
  | some a, none => some a
  | some a, some b => some (a.stretch b)

/-- Page::restretch: reset the bound, then stretch by every child bound. -/
def unionBounds (getB : V → Box n) (cs : List (RNode V n)) : Option (Box n) :=
  cs.foldl (fun acc c => optUnion acc (nbound getB c)) none

/-- Node::area through the reset sentinel.  The source computes the area of
the reset box (a huge garbage value); a reset bound is compared only in
states no populated tree reaches, so the model returns 0 there. -/
def area_opt : Option (Box n) → ℚ
  | none => 0
  | some b => b.area

/-- IncreaseToHold through the reset sentinel, same convention as area_opt. -/
def inc_opt (a b : Option (Box n)) : ℚ :=
  area_opt (optUnion a b) - area_opt a

/- Bool valued well-formedness: every page bound equals the union of the
bounds of its children (the invariant of claim C4). -/
mutual
def WFb (getB : V → Box n) : RNode V n → Bool
  | .leaf _ => true
  | .page b cs => (b = unionBounds getB cs : Bool) && WFbL getB cs
def WFbL (getB : V → Box n) : List (RNode V n) → Bool
  | [] => true
  | c :: cs => WFb getB c && WFbL getB cs
end

/-- Algorithm::find_best_fit_in_node, selection part: scan the children,
keep the child with the strictly smallest increase to hold; on an equal
increase, replace the incumbent when the challenger has a smaller area or a
smaller child count (the two comparisons are joined by or in the source).
Returns the index of the chosen child. -/
def bestStep (getB : V → Box n) (bb : Option (Box n))
    (acc : Option (ℕ × RNode V n × ℚ)) (ic : ℕ × RNode V n) :
    Option (ℕ × RNode V n × ℚ) :=
  let incC := inc_opt (nbound getB ic.2) bb
  match acc with
  | none => some (ic.1, ic.2, incC)
  | some (bi, bc, bmin) =>
    if incC < bmin then some (ic.1, ic.2, incC)
    else if incC = bmin ∧
        (area_opt (nbound getB ic.2) < area_opt (nbound getB bc) ∨
         ic.2.childCount < bc.childCount) then
      some (ic.1, ic.2, incC)
    else some (bi, bc, bmin)

def find_best_fit_idx (getB : V → Box n) (bb : Option (Box n)) (cs : List (RNode V n)) : Option ℕ :=
  (cs.enum.foldl (bestStep getB bb) none).map (fun r => r.1)

/-- Written after the words of claim C6 (not after the source): the
lexicographic tie break the claim describes, smaller current area first and
smaller child count only on equal areas.  Used solely to exhibit the
divergence of the source selection. -/
def bestStepLex (getB : V → Box n) (bb : Option (Box n))
    (acc : Option (ℕ × RNode V n × ℚ)) (ic : ℕ × RNode V n) :
    Option (ℕ × RNode V n × ℚ) :=
  let incC := inc_opt (nbound getB ic.2) bb
  match acc with
  | none => some (ic.1, ic.2, incC)
  | some (bi, bc, bmin) =>
    if incC < bmin then some (ic.1, ic.2, incC)
    else if incC = bmin ∧
        (area_opt (nbound getB ic.2) < area_opt (nbound getB bc) ∨
         (area_opt (nbound getB ic.2) = area_opt (nbound getB bc) ∧
          ic.2.childCount < bc.childCount)) then
      some (ic.1, ic.2, incC)
    else some (bi, bc, bmin)

/-- The selection claim C6 describes, with the lexicographic tie break. -/
def find_best_fit_lex (getB : V → Box n) (bb : Option (Box n)) (cs : List (RNode V n)) : Option ℕ :=
  (cs.enum.foldl (bestStepLex getB bb) none).map (fun r => r.1)

/-! ### Quadratic split strategy (src/library/hopi/spatial/shared/index/rtree/quadratic.hpp) -/

/-- The iterator pair list of Quadratic::pick_seeds: all (earlier, later)
pairs of enumerated children. -/
def seedPairs (cs : List (RNode V n)) : List ((ℕ × RNode V n) × (ℕ × RNode V n)) :=
  cs.enum.flatMap (fun p => (cs.enum.drop (p.1 + 1)).map (fun q => (p, q)))

/-- One comparison step of Quadratic::pick_seeds (strict improvement of the
wasted area). -/
def quadSeedStep (getB : V → Box n) (acc : Option (ℚ × ℕ × ℕ))
    (pq : (ℕ × RNode V n) × (ℕ × RNode V n)) : Option (ℚ × ℕ × ℕ) :=
  let wasted := area_opt (optUnion (nbound getB pq.1.2) (nbound getB pq.2.2)) -
    area_opt (nbound getB pq.1.2) - area_opt (nbound getB pq.2.2)
  match acc with
  | none => some (wasted, pq.1.1, pq.2.1)
  | some (w, i, j) =>
    if wasted > w then some (wasted, pq.1.1, pq.2.1) else some (w, i, j)

/-- Quadratic::pick_seeds: over all index pairs i < j, maximize the wasted
area of the pair (strict improvement, first maximal pair kept). -/
def quadPickSeeds (getB : V → Box n) (cs : List (RNode V n)) : Option (ℕ × ℕ) :=
  ((seedPairs cs).foldl (quadSeedStep getB) none).map (fun r => (r.2.1, r.2.2))

/-- One comparison step of Quadratic::pick_next (strict improvement of the
absolute difference of the two increases; the placement side is page A when
the A increase is strictly smaller). -/
def quadNextStep (getB : V → Box n) (aB bB : Option (Box n))
    (acc : Option (ℚ × ℕ × Bool)) (ic : ℕ × RNode V n) : Option (ℚ × ℕ × Bool) :=
  let aInc := inc_opt aB (nbound getB ic.2)
  let bInc := inc_opt bB (nbound getB ic.2)
  let diff := |aInc - bInc|
  match acc with
  | none => some (diff, ic.1, decide (aInc < bInc))
  | some (d, i, s) =>
    if diff > d then some (diff, ic.1, decide (aInc < bInc)) else some (d, i, s)

/-- Quadratic::pick_next: among the remaining children, maximize the
absolute difference of the increases required by the two new pages (strict
improvement); the chosen child goes to the page with the smaller increase
(ties on the increase go to page B).  Returns (index, into page A?). -/
def quadPickNext (getB : V → Box n) (cs : List (RNode V n))
    (aB bB : Option (Box n)) : Option (ℕ × Bool) :=
  (cs.enum.foldl (quadNextStep getB aB bB) none).map (fun r => (r.2.1, r.2.2))

/-! ### Split (src/library/hopi/spatial/shared/index/rtree/algorithm.hpp, split_node) -/

/-- A page under construction during a split: its cached bound (reset at
creation by the Node constructor) and its child list. -/
abbrev PageAcc (V : Type) (n : ℕ) := Option (Box n) × List (RNode V n)

/-- Page::insert on a page under construction: append the child and stretch
the bound by the child bound. -/
def pageIns (getB : V → Box n) (pg : PageAcc V n) (c : RNode V n) : PageAcc V n :=
  (optUnion pg.1 (nbound getB c), pg.2 ++ [c])

/-- The distribution loop of split_node: while the parent still has children
and both placements would leave the other side above the minimum, pick the
next child and place it.  UB style situations (an invalid index from the
strategy) give none. -/
def split_loop (getB : V → Box n)
    (pickN : List (RNode V n) → Option (Box n) → Option (Box n) → Option (ℕ × Bool))
    (minC : ℕ) (parent : List (RNode V n)) (a b : PageAcc V n) :
    Option (List (RNode V n) × PageAcc V n × PageAcc V n) :=
  if 0 < parent.length ∧ minC < parent.length + a.2.length ∧
      minC < parent.length + b.2.length then
    match pickN parent a.1 b.1 with
    | none => none
    | some (idx, side) =>
      if h : idx < parent.length then
        let c := parent.get ⟨idx, h⟩
        let parent' := parent.eraseIdx idx
        if side then split_loop getB pickN minC parent' (pageIns getB a c) b
        else split_loop getB pickN minC parent' a (pageIns getB b c)
      else none
  else some (parent, a, b)
termination_by parent.length
decreasing_by
  all_goals
    simp only [List.length_eraseIdx, h, if_pos]
    omega

/-- Algorithm::split_node: remove the two seeds into fresh pages, run the
distribution loop, then dump any remainder wholesale into the side still
below the minimum (into A when A is small, else into B).  The original page
is consumed (the source clears it and asserts it is empty). -/
def split_node (getB : V → Box n)
    (pickS : List (RNode V n) → Option (ℕ × ℕ))
    (pickN : List (RNode V n) → Option (Box n) → Option (Box n) → Option (ℕ × Bool))
    (minC : ℕ) (cs : List (RNode V n)) : Option (RNode V n × RNode V n) :=
  match pickS cs with
  | none => none
  | some (i, j) =>
    if h : i < cs.length ∧ j < cs.length ∧ i ≠ j then
      let si := cs.get ⟨i, h.1⟩
      let sj := cs.get ⟨j, h.2.1⟩
      let a0 : PageAcc V n := pageIns getB (none, []) si
      let b0 : PageAcc V n := pageIns getB (none, []) sj
      let parent0 :=
        if i < j then (cs.eraseIdx j).eraseIdx i else (cs.eraseIdx i).eraseIdx j
      match split_loop getB pickN minC parent0 a0 b0 with
      | none => none
      | some (rest, a, b) =>
        if 0 < rest.length then
          if a.2.length < minC then
            some (.page (rest.foldl (pageIns getB) a).1 (rest.foldl (pageIns getB) a).2,
              .page b.1 b.2)
          else
            some (.page a.1 a.2,
              .page (rest.foldl (pageIns getB) b).1 (rest.foldl (pageIns getB) b).2)
        else some (.page a.1 a.2, .page b.1 b.2)
    else none

/-! ### Insert (algorithm.hpp: find_best_fit_in_tree, expand_tree, insert)

The pointer based ascent of expand_tree is realised by returning, from the
recursive descent, either the replacement node or the split pair together
with the bound of the bottom page (the bound expand_tree repeatedly
stretches every ancestor by). -/

/-- The overflow check of expand_tree: when a page exceeds max_children it
is replaced by its split pair (quadratic strategy, the default template
argument of RTree). -/
def splitCheck (getB : V → Box n) (maxC minC : ℕ) (b : Option (Box n))
    (cs : List (RNode V n)) : Option (RNode V n ⊕ RNode V n × RNode V n) :=
  if maxC < cs.length then
    (split_node getB (quadPickSeeds getB) (quadPickNext getB) minC cs).map .inr
  else some (.inl (.page b cs))

/-- Descent and ascent of one insertion below an existing page, following
find_best_fit_in_tree (stop at the page whose front child is a leaf, or at
the page whose best fitting child is a leaf) and expand_tree (split on
overflow while ascending, stretch every ancestor by the bottom page bound).
Returns the replacement (or split pair) together with the bottom bound. -/
def insGo (getB : V → Box n) (maxC minC : ℕ) (t pn : RNode V n) :
    Option ((RNode V n ⊕ RNode V n × RNode V n) × Option (Box n)) :=
  match t with
  | .leaf _ => none
  | .page b cs =>
    match cs.head? with
    | none => none
    | some h =>
      if h.isLeaf then
        let b' := optUnion b (nbound getB pn)
        (splitCheck getB maxC minC b' (cs ++ [pn])).map (fun r => (r, b'))
      else
        match find_best_fit_idx getB (nbound getB pn) cs with
        | none => none
        | some i =>
          if hi : i < cs.length then
            let c := cs.get ⟨i, hi⟩
            if c.isLeaf then
              let b' := optUnion b (nbound getB pn)
              (splitCheck getB maxC minC b' (cs ++ [pn])).map (fun r => (r, b'))
            else
              match insGo getB maxC minC c pn with
              | none => none
              | some (res, pb) =>
                let cs' := match res with
                  | .inl c' => cs.set i c'
                  | .inr (x, y) => cs.eraseIdx i ++ [x, y]
                let b' := match res with
                  | .inl _ => b
                  | .inr (x, y) => optUnion (optUnion b (nbound getB x)) (nbound getB y)
                (splitCheck getB maxC minC (optUnion b' pb) cs').map (fun r => (r, pb))
          else none
termination_by RNode.sizeN t
decreasing_by
  have hlt : ∀ (b0 : Option (Box n)) (l : List (RNode V n)), ∀ c0 ∈ l,
      RNode.sizeN c0 < RNode.sizeN (RNode.page b0 l) := by
    intro b0 l
    induction l with
    | nil => intro c0 hc; cases hc
    | cons d ds ih =>
      intro c0 hc
      rcases List.mem_cons.mp hc with hc | hc
      · subst hc; simp [RNode.sizeN, RNode.sizeNL]; omega
      · have := ih c0 hc
        simp [RNode.sizeN, RNode.sizeNL] at this ⊢
        omega
  exact hlt _ _ _ (List.get_mem _ _ _)

/-- Assembly of the expand_tree root case: a split pair at the root becomes
the children of a freshly constructed root page (reset bound stretched by
the two inserted halves). -/
def rootAssemble (getB : V → Box n) : (RNode V n ⊕ RNode V n × RNode V n) → RNode V n
  | .inl t => t
  | .inr (x, y) =>
    .page (optUnion (optUnion none (nbound getB x)) (nbound getB y)) [x, y]

/-- Algorithm::insert: place a node below the root (a fresh empty page when
the tree is empty) and rebuild upward. -/
def insertNode (getB : V → Box n) (maxC minC : ℕ)
    (root : Option (RNode V n)) (pn : RNode V n) : Option (RNode V n) :=
  match root with
  | none =>
    (splitCheck getB maxC minC (optUnion none (nbound getB pn)) [pn]).map (rootAssemble getB)
  | some t => (insGo getB maxC minC t pn).map (fun r => rootAssemble getB r.1)

/-- RTree::insert of one value: wrap the value in a leaf and insert it. -/
def insertVal (getB : V → Box n) (maxC minC : ℕ)
    (root : Option (RNode V n)) (v : V) : Option (RNode V n) :=
  insertNode getB maxC minC root (.leaf v)

/-! ### Remove (algorithm.hpp: remove, condense_tree)

Algorithm::remove compares child->data() against the removed value; Node
has no member data() in the source (the template is never instantiated by
the repository), so following the documented intent (matching properties,
box and data) the comparison is embedded as the stored leaf value. -/

/-- The match removal at the best fitting page: the source asserts every
child of that page is a leaf (a structural assertion, fatal on failure),
then removes each child whose bound and value both match, then restretches. -/
def removeMatches [DecidableEq V] (getB : V → Box n) (cs : List (RNode V n))
    (rb : Box n) (rv : V) : Option (RNode V n) :=
  if cs.all (fun c => c.isLeaf) then
    let cs' := cs.filter
      (fun c => !(decide (nbound getB c = some rb) && decide (c.leafVal? = some rv)))
    some (.page (unionBounds getB cs') cs')
  else none

/-- Descent of Algorithm::remove plus the ascent of condense_tree: every
ancestor is restretched; a node that drops below min_children is dissolved
and its children are appended to the orphan list (deeper levels first). -/
def removeGo [DecidableEq V] (getB : V → Box n) (minC : ℕ) (t : RNode V n)
    (rb : Box n) (rv : V) : Option (RNode V n × List (RNode V n)) :=
  match t with
  | .leaf _ => none
  | .page _ cs =>
    match cs.head? with
    | none => none
    | some h =>
      if h.isLeaf then (removeMatches getB cs rb rv).map (fun t' => (t', []))
      else
        match find_best_fit_idx getB (some rb) cs with
        | none => none
        | some i =>
          if hi : i < cs.length then
            let c := cs.get ⟨i, hi⟩
            if c.isLeaf then (removeMatches getB cs rb rv).map (fun t' => (t', []))
            else
              match removeGo getB minC c rb rv with
              | none => none
              | some (c', orph) =>
                if c'.childCount < minC then
                  let cs' := cs.eraseIdx i
                  some (.page (unionBounds getB cs') cs', orph ++ c'.children)
                else
                  let cs' := cs.set i c'
                  some (.page (unionBounds getB cs') cs', orph)
          else none
termination_by RNode.sizeN t
decreasing_by
  have hlt : ∀ (b0 : Option (Box n)) (l : List (RNode V n)), ∀ c0 ∈ l,
      RNode.sizeN c0 < RNode.sizeN (RNode.page b0 l) := by
    intro b0 l
    induction l with
    | nil => intro c0 hc; cases hc
    | cons d ds ih =>
      intro c0 hc
      rcases List.mem_cons.mp hc with hc | hc
      · subst hc; simp [RNode.sizeN, RNode.sizeNL]; omega
      · have := ih c0 hc
        simp [RNode.sizeN, RNode.sizeNL] at this ⊢
        omega
  exact hlt _ _ _ (List.get_mem _ _ _)

/-- Algorithm::remove at the root: a null root grows a fresh empty page (the
source searches it, finds nothing and returns it); otherwise descend,
condense, re-insert the orphans in order through the full insertion
algorithm, and finally collapse a root left with a single page child. -/
def removeNode [DecidableEq V] (getB : V → Box n) (maxC minC : ℕ)
    (root : Option (RNode V n)) (rb : Box n) (rv : V) : Option (RNode V n) :=
  match root with
  | none => some (.page none [])
  | some t =>
    match removeGo getB minC t rb rv with
    | none => none
    | some (t', orphans) =>
      match orphans.foldlM (fun acc o => insertNode getB maxC minC (some acc) o) t' with
      | none => none
      | some t2 =>
        if t2.childCount = 1 then
          match t2.children.head? with
          | some c => if c.isLeaf then some t2 else some c
          | none => some t2
        else some t2

/-- RTree::remove of one value: build the probe leaf and remove matches. -/
def removeVal [DecidableEq V] (getB : V → Box n) (maxC minC : ℕ)
    (root : Option (RNode V n)) (v : V) : Option (RNode V n) :=
  removeNode getB maxC minC root (getB v) v

/-! ### Distance query (rtree.hpp, query_dispatch for distance predicates)

candidate_nodes is a std::multiset ordered by the first pair component with
insertion at the upper bound of the equal range: a sorted list with
insertion after equal keys.  candidate_leafs is the TruncatedMultiSet of
src/library/hopi/spatial/common/truncated_multiset.hpp: the same insertion
followed by truncation to the first K elements. -/

/-- Multiset insertion keyed on the first component, new element placed
after existing equal keys. -/
def msetInsert {α : Type} (x : ℚ × α) : List (ℚ × α) → List (ℚ × α)
  | [] => [x]
  | y :: ys => if y.1 ≤ x.1 then y :: msetInsert x ys else x :: y :: ys

/-- The distance predicate Nearest(bound, K) evaluated on a node: the
Nearest metric of the node bound against the target bound (the same
dispatch for pages and leaves).  A reset page bound gives 0; such a page
has no leaves, so the value only causes a harmless expansion of an empty
child list. -/
def ndist (getB : V → Box n) (tb : Box n) (t : RNode V n) : ℚ :=
  match nbound getB t with
  | some b => Nearest b tb
  | none => 0

/-- Comparison against the running distance threshold (initially the
largest representable value, modelled as none). -/
def tauLe (d : ℚ) : Option ℚ → Bool
  | none => true
  | some x => decide (d ≤ x)

/-- The best first loop of the distance query_dispatch.  The fuel argument
dominates the number of pops (each pop consumes one node of the forest);
exhausted fuel returns none, as does the undefined dereference of
crbegin() on an empty truncated set (reachable only for K = 0). -/
def knnLoop (getB : V → Box n) (tb : Box n) (K : ℕ) :
    ℕ → List (ℚ × RNode V n) → List (ℚ × V) → Option ℚ → Option (List (ℚ × V))
  | 0, _, _, _ => none
  | _ + 1, [], leafs, _ => some leafs
  | fuel + 1, (d, t) :: rest, leafs, tau =>
    if tauLe d tau then
      match t with
      | .leaf v =>
        let leafs2 := (msetInsert (d, v) leafs).take K
        if K ≤ leafs2.length then
          match leafs2.getLast? with
          | some p => knnLoop getB tb K fuel rest leafs2 (some p.1)
          | none => none
        else knnLoop getB tb K fuel rest leafs2 tau
      | .page _ cs =>
        knnLoop getB tb K fuel
          (cs.foldl (fun acc c => msetInsert (ndist getB tb c, c) acc) rest) leafs tau
    else knnLoop getB tb K fuel rest leafs tau

/-- RTree::query with a Nearest predicate: empty tree answers nothing,
otherwise run the best first loop from the root and emit the accumulated
values in multiset order. -/
def knnQuery (getB : V → Box n) (root : Option (RNode V n)) (tb : Box n) (K : ℕ) :
    Option (List V) :=
  match root with
  | none => some []
  | some t =>
    (knnLoop getB tb K (RNode.sizeN t + 1) [(ndist getB tb t, t)] [] none).map
      (fun l => l.map Prod.snd)

end TreeAlgorithm

/-! ## RTree container (src/library/hopi/spatial/shared/index/rtree.hpp) -/

/-- The RTree object: its only state is the root node pointer. -/
structure RTree (V : Type) (n : ℕ) where
  root_node_ptr : Option (RNode V n)

/-- RTree::empty, exactly as written: the boolean conversion of the root
pointer (true when the pointer is non null). -/
def RTree.empty {V : Type} {n : ℕ} (t : RTree V n) : Bool :=
  t.root_node_ptr.isSome

/-! ## Exhaustive index (src/library/hopi/spatial/shared/index/exhaustive.hpp) -/

/-- std::remove_if on a sequence, with copy semantics for the element moves:
the kept elements are shifted to the front, positions past them keep their
old values, and the sequence length never changes.  The returned past the
end iterator is what Exhaustive::_remove discards. -/
def removeIfList {α : Type} (p : α → Bool) (l : List α) : List α :=
  let kept := l.filter (fun x => !(p x))
  kept ++ l.drop kept.length

/-- The Exhaustive index: a flat value list plus a cached overall bound. -/
structure Exhaustive (V : Type) (n : ℕ) where
  values : List V
  bound : Option (Box n)

/-- Exhaustive::remove: apply _remove (std::remove_if whose result is never
erased) and then _restretch over whatever the list now holds. -/
def Exhaustive.removeVal {V : Type} {n : ℕ} [DecidableEq V] (getB : V → Box n)
    (E : Exhaustive V n) (v : V) : Exhaustive V n :=
  let vals := removeIfList (fun x => decide (v = x)) E.values
  { values := vals,
    bound := vals.foldl (fun acc x => optUnion acc (some (getB x))) none }

/-- Exhaustive::_query_dispatch for spatial predicates: scan every stored
value and emit those whose extracted bound satisfies the leaf test; the
return value is the emitted count. -/
def Exhaustive.spatialCount {V : Type} {n : ℕ} (getB : V → Box n)
    (pred : Box n → Bool) (E : Exhaustive V n) : ℕ :=
  (E.values.filter (fun v => pred (getB v))).length

/-! ## RCB all-reduce combiner (src/library/hopi/partition/rcb.hpp, init)

The lambda passed to mpixx::all_reduce starts from ans = a and then, for
every index below the size of ans, assigns both components of b into ans.
Both vectors have one entry per pending box, hence equal lengths on every
rank; a shorter right operand would be read out of bounds, so the model
requires the right operand to be at least as long. -/

/-- The all_reduce combiner of RCB::init, exactly as written: the result is
a with every in-range component overwritten by the corresponding component
of b. -/
def rcbCombine (a b : List (ℚ × ℚ)) : Option (List (ℚ × ℚ)) :=
  if a.length ≤ b.length then some (b.take a.length) else none

/-- The combiner the surrounding mathematics requires (spec section 4.4):
componentwise sums, so that the reduced pair is (sum of split times weight,
sum of weight). -/
def rcbCombineSpec (a b : List (ℚ × ℚ)) : List (ℚ × ℚ) :=
  List.zipWith (fun (x y : ℚ × ℚ) => (x.1 + y.1, x.2 + y.2)) a b

/-! ## RCB partitioner (src/library/hopi/partition/rcb.hpp, init)

Each rank holds a point cloud with optional weights.  The source gathers the
contained points of a pending box through an R-tree query with the
ContainedByNonInclusive predicate; on a tree satisfying the bound invariant
that query emits exactly the stored points the box contains non inclusively,
so the model gathers them by filtering the input cloud directly (the
subsequent std::sort reorders them by center anyway; the source sort is
unstable, the model uses a deterministic insertion sort, one of the orders
the source may produce). -/

section RCBSection

variable {n : ℕ} [NeZero n]

/-- A point of the cloud. -/
abbrev Point (n : ℕ) := Fin n → ℚ

/-- The degenerate box built for each input point (min = max = point). -/
def ptBox (p : Point n) : Box n := ⟨p, p⟩

/-- The weight copy loop of init: take the given weights, or weight 1 for
every point when no weight pointer was passed. -/
def rankWeighted (pts : List (Point n)) (w : Option (List ℚ)) : List (Point n × ℚ) :=
  match w with
  | none => pts.map (fun p => (p, 1))
  | some ws => pts.zip ws

/-- rtree.bounds() of the per rank tree of point boxes: the union of all
point boxes, none for an empty rank (where the source dereferences a null
root pointer). -/
def rankBound (pts : List (Point n)) : Option (Box n) :=
  pts.foldl (fun acc p => optUnion acc (some (ptBox p))) none

/-- Insertion sort by center along a fixed dimension (the contained point
sort of init). -/
def sortIns (ld : Fin n) (q : Point n × ℚ) :
    List (Point n × ℚ) → List (Point n × ℚ)
  | [] => [q]
  | r :: rs =>
    if (ptBox r.1).center ld ≤ (ptBox q.1).center ld then r :: sortIns ld q rs
    else q :: r :: rs

/-- Sort a contained point list by center along the longest dimension. -/
def sortByCenter (ld : Fin n) : List (Point n × ℚ) → List (Point n × ℚ)
  | [] => []
  | q :: qs => sortIns ld q (sortByCenter ld qs)

/-- std::partial_sum on the weight list. -/
def partialSums (acc : ℚ) : List ℚ → List ℚ
  | [] => []
  | x :: xs => (acc + x) :: partialSums (acc + x) xs

/-- The local split candidate of one rank for one pending box: filter the
contained points, sort by center along the longest dimension, take the
weighted median at the rank ratio, and pack (median value times total
weight, total weight).  none models the out of bounds reads of the source
when the rank has no contained point (back() of an empty vector) or when
the upper bound lands past the end. -/
def localSplit (pw : List (Point n × ℚ)) (box : Box n) (tp : ℕ) : Option (ℚ × ℚ) :=
  let ld := box.longest_dimension
  let contained := pw.filter (fun q => decide (ContainsNonInclusive box (ptBox q.1)))
  let sorted := sortByCenter ld contained
  let pref := partialSums 0 (sorted.map (fun q => q.2))
  match pref.getLast? with
  | none => none
  | some total =>
    let ratio : ℚ := ((tp / 2 : ℕ) : ℚ) / (tp : ℚ)
    let mi := pref.findIdx (fun x => decide (ratio * total < x))
    match sorted.get? mi with
    | none => none
    | some q => some ((ptBox q.1).center ld * total, total)

/-- The per rank vector of local split candidates for all pending boxes. -/
def localSplitList (pw : List (Point n × ℚ)) : List (Box n × ℕ) → Option (List (ℚ × ℚ))
  | [] => some []
  | bx :: rest =>
    match localSplit pw bx.1 bx.2, localSplitList pw rest with
    | some p, some ps => some (p :: ps)
    | _, _ => none

/-- The local split vectors of every rank. -/
def ranksLocalLists (ranksW : List (List (Point n × ℚ))) (pending : List (Box n × ℕ)) :
    Option (List (List (ℚ × ℚ))) :=
  match ranksW with
  | [] => some []
  | rw :: rest =>
    match localSplitList rw pending, ranksLocalLists rest pending with
    | some l, some ls => some (l :: ls)
    | _, _ => none

/-- Fold of the all_reduce combiner over the remaining ranks. -/
def allReduceGo (acc : List (ℚ × ℚ)) : List (List (ℚ × ℚ)) → Option (List (ℚ × ℚ))
  | [] => some acc
  | x :: xs =>
    match rcbCombine acc x with
    | some acc2 => allReduceGo acc2 xs
    | none => none

/-- mpixx::all_reduce over the per rank split vectors with the combiner of
init.  The association order of an MPI user operation is implementation
defined; the model reduces in rank order (with the overwrite combiner of
the source the result is the last rank either way). -/
def allReduceSplits : List (List (ℚ × ℚ)) → Option (List (ℚ × ℚ))
  | [] => none
  | l :: ls => allReduceGo l ls

/-- Ordered insertion into the std::set of final boxes under the Box less
comparator: walk to the first position whose element is not below the new
box; if that element is also not above it the two are equivalent and the
new box is dropped. -/
def setInsert (fs : List (Box n)) (x : Box n) : List (Box n) :=
  match fs with
  | [] => [x]
  | y :: ys =>
    if Box.less x y then x :: y :: ys
    else if Box.less y x then y :: setInsert ys x
    else y :: ys

/-- The second per box loop of one round: split every pending box at the
reduced weighted split along its longest dimension, send one rank halves to
the final set (low half first) and multi rank halves back to the work
list. -/
def roundAssign (items : List ((Box n × ℕ) × (ℚ × ℚ))) (fs : List (Box n)) :
    List (Box n × ℕ) × List (Box n) :=
  match items with
  | [] => ([], fs)
  | it :: rest =>
    let bx := it.1.1
    let tp := it.1.2
    let ld := bx.longest_dimension
    let ws := it.2.1 / it.2.2
    let hgh : Box n := ⟨Function.update bx.min ld ws, bx.max⟩
    let low : Box n := ⟨bx.min, Function.update bx.max ld ws⟩
    let small := tp / 2
    let large := tp - small
    let step1 : List (Box n × ℕ) × List (Box n) :=
      if small = 1 then ([], setInsert fs low) else ([(low, small)], fs)
    let step2 : List (Box n × ℕ) × List (Box n) :=
      if large = 1 then ([], setInsert step1.2 hgh) else ([(hgh, large)], step1.2)
    let recur := roundAssign rest step2.2
    (step1.1 ++ step2.1 ++ recur.1, recur.2)

/-- The while loop of init over the pending box list, with fuel (the loop
of the source terminates because rank counts at least halve; insufficient
fuel returns none and is never claimed). -/
def rcbLoop (ranksW : List (List (Point n × ℚ))) :
    ℕ → List (Box n × ℕ) → List (Box n) → Option (List (Box n))
  | _, [], fs => some fs
  | 0, _ :: _, _ => none
  | fuel + 1, pending, fs =>
    match ranksLocalLists ranksW pending with
    | none => none
    | some lists =>
      match allReduceSplits lists with
      | none => none
      | some glob =>
        if glob.length = pending.length then
          let r := roundAssign (pending.zip glob) fs
          rcbLoop ranksW fuel r.1 r.2
        else none

/-- RCB::init for the whole communicator: per rank clouds with optional
weights in rank order.  Gather the rank bounds, union them, seal the domain
with next_larger (the nudges down and up), then bisect until every pending
box carries a single rank; the result is the ordered final box list (the
m_bounds vector). -/
def rcbInit (down up : ℚ → ℚ) (ranksIn : List (List (Point n) × Option (List ℚ))) :
    Option (List (Box n)) :=
  match ranksIn with
  | [] => none
  | r0 :: rrest =>
    match rankBound r0.1 with
    | none => none
    | some b0 =>
      match (rrest.map (fun r => rankBound r.1)).foldl
          (fun acc ob => match acc, ob with
            | some a, some b => some (a.stretch b)
            | _, _ => none) (some b0) with
      | none => none
      | some g =>
        let g2 : Box n := ⟨fun i => down (g.min i), fun i => up (g.max i)⟩
        let R := ranksIn.length
        let ranksW := ranksIn.map (fun r => rankWeighted r.1 r.2)
        if R = 1 then some [g2]
        else rcbLoop ranksW R [(g2, R)] []

end RCBSection

/-! ## UniqueMap (src/test/system/system.cpp) -/

section UniqueMapSection

variable {κ : Type} [DecidableEq κ] [Inhabited κ]

/-- unordered_map find: the map never holds two entries for one key, so an
association list searched front to back is an exact model. -/
def findFirst? (m : List (κ × ℕ)) (v : κ) : Option ℕ :=
  (m.find? (fun e => decide (e.1 = v))).map (fun e => e.2)

/-- The scan loop of UniqueMap::setup: on a missing value record a unique
index (and remember the first seen position), on a present value record the
(duplicate position, representative position) pair. -/
def setupGo (m : List (κ × ℕ)) (i : ℕ) : List κ → List ℕ × List (ℕ × ℕ)
  | [] => ([], [])
  | v :: vs =>
    match findFirst? m v with
    | none =>
      let r := setupGo (m ++ [(v, i)]) (i + 1) vs
      (i :: r.1, r.2)
    | some rep =>
      let r := setupGo m (i + 1) vs
      (r.1, (i, rep) :: r.2)

/-- UniqueMap::setup. -/
def uniqueSetup (vals : List κ) : List ℕ × List (ℕ × ℕ) :=
  setupGo [] 0 vals

/-- UniqueMap::reduce_to_unique: gather the positions listed in unique_idx. -/
def reduce_to_unique (u : List ℕ) (vin : List κ) : List κ :=
  u.map (fun j => vin.getD j default)

/-- UniqueMap::expand_to_non_unique: resize the output (value initialised),
write the unique values at their original positions, then copy every
representative value onto its duplicate position. -/
def expand_to_non_unique (u : List ℕ) (d : List (ℕ × ℕ)) (vin : List κ) : List κ :=
  let out0 := List.replicate (u.length + d.length) (default : κ)
  let out1 := (u.zip vin).foldl (fun acc p => acc.set p.1 p.2) out0
  d.foldl (fun acc p => acc.set p.1 (acc.getD p.2 default)) out1

end UniqueMapSection

/-! ## Theorems -/

/-- Claim C7: when a box is split along dimension d into a lower and an
upper half that share the face at the split coordinate, a degenerate point
box is contained non inclusively in at most one of the halves, and a point
exactly on the shared face is never owned by the lower half. -/
theorem claim_C7_split_halves_exclusive {n : ℕ} (B : Box n) (d : Fin n) (s : ℚ)
    (p : Box n)
    (lower upper : Box n)
    (hlow : lower = ⟨B.min, Function.update B.max d s⟩)
    (hupp : upper = ⟨Function.update B.min d s, B.max⟩)
    (hdeg : p.min = p.max) :
    ¬ (ContainsNonInclusive lower p ∧ ContainsNonInclusive upper p) ∧
      (p.min d = s → ¬ ContainsNonInclusive lower p) := by
  subst hlow; subst hupp
  constructor
  · rintro ⟨⟨-, hlmax⟩, ⟨humin, -⟩⟩
    have h1 : p.max d < s := by simpa using hlmax d
    have h2 : s ≤ p.min d := by simpa using humin d
    have h3 : p.max d < p.min d := h1.trans_le h2
    rw [hdeg] at h3
    exact lt_irrefl _ h3
  · intro hface
    rintro ⟨-, hlmax⟩
    have h1 : p.max d < s := by simpa using hlmax d
    rw [← hdeg, hface] at h1
    exact lt_irrefl _ h1

/-- Witness for C7 at a concrete split: the unit interval split at 1/2,
with the probe point sitting exactly on the shared face. -/
theorem claim_C7_witness :
    let B : Box 1 := ⟨fun _ => 0, fun _ => 1⟩
    let p : Box 1 := ⟨fun _ => 1/2, fun _ => 1/2⟩
    let lower : Box 1 := ⟨B.min, Function.update B.max 0 (1/2)⟩
    let upper : Box 1 := ⟨Function.update B.min 0 (1/2), B.max⟩
    ¬ (ContainsNonInclusive lower p ∧ ContainsNonInclusive upper p) ∧
      (p.min 0 = 1/2 → ¬ ContainsNonInclusive lower p) :=
  claim_C7_split_halves_exclusive
    ⟨fun _ => 0, fun _ => 1⟩ 0 (1/2) ⟨fun _ => 1/2, fun _ => 1/2⟩ _ _ rfl rfl rfl

/-- Claim C2: the all_reduce combiner in RCB::init discards its left operand
instead of summing.  At the concrete failing input of two ranks holding the
local packs (2,1) and (6,2), the reduction yields (6,2), in other words the
split 6/2 = 3, whereas the componentwise summation demanded by the spec
yields (8,3), the weight weighted mean 8/3. -/
theorem claim_C2_combiner_overwrites :
    rcbCombine [((2 : ℚ), (1 : ℚ))] [(6, 2)] = some [(6, 2)] ∧
      rcbCombineSpec [((2 : ℚ), (1 : ℚ))] [(6, 2)] = [(8, 3)] ∧
      ((6 : ℚ) / 2 ≠ 8 / 3) := by
  refine ⟨?_, ?_, by norm_num⟩
  · simp [rcbCombine]
  · simp [rcbCombineSpec]
    norm_num

/-- Claim C9: RTree::empty returns the boolean conversion of the root
pointer: false on a default constructed tree (null root, no values) and
true as soon as an insertion has installed a root node — the negation of
what the name empty denotes. -/
theorem claim_C9_empty_is_negated :
    RTree.empty (⟨none⟩ : RTree (Box 1) 1) = false ∧
      ∀ (V : Type) (n : ℕ) (getB : V → Box n) (maxC minC : ℕ)
        (root : Option (RNode V n)) (v : V) (t' : RNode V n),
        insertVal getB maxC minC root v = some t' →
          RTree.empty (⟨some t'⟩ : RTree V n) = true := by
  refine ⟨rfl, ?_⟩
  intro V n getB maxC minC root v t' _
  rfl

/-- Witness for C9: inserting one value into the default constructed tree
succeeds and the resulting tree reports empty() = true. -/
theorem claim_C9_witness :
    RTree.empty (⟨none⟩ : RTree (Box 1) 1) = false ∧
      RTree.empty
        (⟨some (.page (some ⟨fun _ => 0, fun _ => 1⟩)
          [.leaf (⟨fun _ => 0, fun _ => 1⟩ : Box 1)])⟩ : RTree (Box 1) 1) = true := by
  have h := claim_C9_empty_is_negated
  refine ⟨h.1, ?_⟩
  refine h.2 (Box 1) 1 (fun b => b) 10 4 none ⟨fun _ => 0, fun _ => 1⟩ _ ?_
  simp [insertVal, insertNode, splitCheck, optUnion, nbound, rootAssemble]

/-- Claim C10: Exhaustive::remove applies std::remove_if to the value list
but never erases the returned range, so the stored value count is unchanged
and a spatial query with an always true predicate still emits as many items
as before the removal. -/
theorem claim_C10_remove_keeps_count {V : Type} {n : ℕ} [DecidableEq V]
    (getB : V → Box n) (E : Exhaustive V n) (v : V) :
    (E.removeVal getB v).values.length = E.values.length ∧
      ∀ pred : Box n → Bool, (∀ b, pred b = true) →
        Exhaustive.spatialCount getB pred (E.removeVal getB v) =
          Exhaustive.spatialCount getB pred E := by
  have hlen : (E.removeVal getB v).values.length = E.values.length := by
    show (removeIfList _ E.values).length = E.values.length
    unfold removeIfList
    have hf : (E.values.filter fun x => !(decide (v = x))).length ≤ E.values.length :=
      List.length_filter_le _ _
    simp [List.length_drop]
    omega
  refine ⟨hlen, ?_⟩
  intro pred hpred
  unfold Exhaustive.spatialCount
  have hall : ∀ (l : List V), (l.filter (fun w => pred (getB w))).length = l.length := by
    intro l
    have : (fun w => pred (getB w)) = fun _ => true := by
      funext w; exact hpred (getB w)
    rw [this, List.filter_true]
  rw [hall, hall, hlen]

/-- Witness for C10: removing the stored value from a one element index
leaves one (stale) slot behind and the count emitted by an all pass spatial
query is still one. -/
theorem claim_C10_witness :
    let b : Box 1 := ⟨fun _ => 0, fun _ => 1⟩
    let E : Exhaustive (Box 1) 1 := ⟨[b], some b⟩
    (E.removeVal (fun x => x) b).values.length = E.values.length ∧
      Exhaustive.spatialCount (fun x => x) (fun _ => true) (E.removeVal (fun x => x) b) =
        Exhaustive.spatialCount (fun x => x) (fun _ => true) E := by
  intro b E
  have h := claim_C10_remove_keeps_count (fun x => x) E b
  exact ⟨h.1, h.2 (fun _ => true) (fun _ => rfl)⟩

/-- The best fit fold always lands on a child attaining the minimum
increase to hold among the scanned children. -/
theorem bestFold_spec {V : Type} {n : ℕ} (getB : V → Box n) (bb : Option (Box n))
    (cs : List (RNode V n)) :
    ∀ (l : List (ℕ × RNode V n)) (acc : Option (ℕ × RNode V n × ℚ)),
      (∀ p ∈ l, p.1 < cs.length ∧ cs[p.1]? = some p.2) →
      (∀ a, acc = some a → a.1 < cs.length ∧ cs[a.1]? = some a.2.1 ∧
        a.2.2 = inc_opt (nbound getB a.2.1) bb) →
      (acc = none → l ≠ []) →
      ∃ bi bc bmin, l.foldl (bestStep getB bb) acc = some (bi, bc, bmin) ∧
        bi < cs.length ∧ cs[bi]? = some bc ∧ bmin = inc_opt (nbound getB bc) bb ∧
        (∀ p ∈ l, bmin ≤ inc_opt (nbound getB p.2) bb) ∧
        (∀ a, acc = some a → bmin ≤ a.2.2) := by
  intro l
  induction l with
  | nil =>
    intro acc _ hacc hne
    rcases acc with - | a
    · exact absurd rfl (hne rfl)
    · obtain ⟨h1, h2, h3⟩ := hacc a rfl
      refine ⟨a.1, a.2.1, a.2.2, by simp, h1, h2, h3, by simp, ?_⟩
      intro a' ha'
      injection ha' with ha''
      subst ha''
      exact le_refl _
  | cons p l' ih =>
    intro acc hl hacc hne
    have hp := hl p (by simp)
    -- the accumulator after one step
    have hstep : ∃ b', bestStep getB bb acc p = some b' ∧
        (b'.1 < cs.length ∧ cs[b'.1]? = some b'.2.1 ∧
          b'.2.2 = inc_opt (nbound getB b'.2.1) bb) ∧
        b'.2.2 ≤ inc_opt (nbound getB p.2) bb ∧
        (∀ a, acc = some a → b'.2.2 ≤ a.2.2) := by
      rcases acc with - | a
      · refine ⟨(p.1, p.2, inc_opt (nbound getB p.2) bb), by simp [bestStep], ?_, le_refl _, by
          intro a ha; cases ha⟩
        exact ⟨hp.1, hp.2, rfl⟩
      · obtain ⟨ha1, ha2, ha3⟩ := hacc a rfl
        by_cases hlt : inc_opt (nbound getB p.2) bb < a.2.2
        · refine ⟨(p.1, p.2, inc_opt (nbound getB p.2) bb), ?_, ⟨hp.1, hp.2, rfl⟩,
            le_refl _, ?_⟩
          · obtain ⟨a1, a2, a3⟩ := a
            simp only [bestStep]
            rw [if_pos hlt]
          · intro a' ha'
            injection ha' with ha''
            subst ha''
            exact le_of_lt hlt
        · by_cases heq : inc_opt (nbound getB p.2) bb = a.2.2 ∧
            (area_opt (nbound getB p.2) < area_opt (nbound getB a.2.1) ∨
             p.2.childCount < a.2.1.childCount)
          · refine ⟨(p.1, p.2, inc_opt (nbound getB p.2) bb), ?_, ⟨hp.1, hp.2, rfl⟩,
              le_refl _, ?_⟩
            · obtain ⟨a1, a2, a3⟩ := a
              simp only [bestStep]
              rw [if_neg hlt, if_pos (by exact heq)]
            · intro a' ha'
              injection ha' with ha''
              subst ha''
              exact le_of_eq heq.1
          · refine ⟨a, ?_, ⟨ha1, ha2, ha3⟩, not_lt.mp hlt, ?_⟩
            · obtain ⟨a1, a2, a3⟩ := a
              simp only [bestStep]
              rw [if_neg hlt, if_neg (by exact heq)]
            · intro a' ha'
              injection ha' with ha''
              subst ha''
              exact le_refl _
    obtain ⟨b', hb'eq, hb'ok, hb'p, hb'acc⟩ := hstep
    obtain ⟨bi, bc, bmin, hfold, h1, h2, h3, h4, h5⟩ :=
      ih (bestStep getB bb acc p)
        (fun q hq => hl q (by simp [hq]))
        (fun a ha => by rw [hb'eq] at ha; cases ha; exact hb'ok)
        (by intro hcon; rw [hb'eq] at hcon; cases hcon)
    refine ⟨bi, bc, bmin, by simpa using hfold, h1, h2, h3, ?_, ?_⟩
    · intro q hq
      rcases List.mem_cons.mp hq with hq | hq
      · subst hq
        have := h5 b' (by rw [hb'eq])
        exact this.trans hb'p
      · exact h4 q hq
    · intro a ha
      have := h5 b' (by rw [hb'eq])
      exact this.trans (hb'acc a ha)

/-- Claim C6 (amended): during insertion descent the child selected by
find_best_fit_in_node is one whose increase to hold the new bound is
minimal among all children; ties on that increase are not broken
lexicographically but disjunctively — a later scanned child with equal
increase replaces the incumbent when its current area is smaller or its
child count is smaller. -/
theorem claim_C6_best_fit_min_increase {V : Type} {n : ℕ} (getB : V → Box n)
    (bb : Option (Box n)) (cs : List (RNode V n)) (hne : cs ≠ []) :
    ∃ i c, find_best_fit_idx getB bb cs = some i ∧ i < cs.length ∧ cs[i]? = some c ∧
      ∀ j, j < cs.length → ∀ cj, cs[j]? = some cj →
        inc_opt (nbound getB c) bb ≤ inc_opt (nbound getB cj) bb := by
  obtain ⟨bi, bc, bmin, hfold, h1, h2, h3, h4, -⟩ :=
    bestFold_spec getB bb cs cs.enum none
      (by
        intro p hp
        have := List.mem_enum_iff_getElem?.mp hp
        exact ⟨by
          have := List.getElem?_eq_some_iff.mp this
          exact this.1, this⟩)
      (by intro a ha; cases ha)
      (by
        intro _
        intro hcon
        apply hne
        have : cs.enum.length = 0 := by rw [hcon]; simp
        simpa using this)
  refine ⟨bi, bc, ?_, h1, h2, ?_⟩
  · simp [find_best_fit_idx, hfold]
  · intro j hj cj hcj
    have hmem : (j, cj) ∈ cs.enum := List.mk_mem_enum_iff_getElem?.mpr hcj
    have := h4 (j, cj) hmem
    rw [← h3]
    exact this

/-- Witness for the amended claim C6 on a two child page. -/
theorem claim_C6_witness :
    let b01 : Box 1 := ⟨fun _ => 0, fun _ => 1⟩
    let b02 : Box 1 := ⟨fun _ => 0, fun _ => 2⟩
    let cs : List (RNode (Box 1) 1) := [.leaf b01, .leaf b02]
    ∃ i c, find_best_fit_idx (fun x => x) (some b01) cs = some i ∧ i < cs.length ∧
      cs[i]? = some c ∧
      ∀ j, j < cs.length → ∀ cj, cs[j]? = some cj →
        inc_opt (nbound (fun x => x) c) (some b01) ≤
          inc_opt (nbound (fun x => x) cj) (some b01) := by
  intro b01 b02 cs
  exact claim_C6_best_fit_min_increase (fun x => x) (some b01) cs (by simp [cs])

/-- Counterexample to claim C6 as stated: a page with two page children
P1 (five leaves, bound of area 2) and P2 (four leaves, bound of area 4),
probed with a box both bounds already hold (increase 0 for both).  The
lexicographic rule of the claim keeps P1 (strictly smaller area), but the
source comparison (smaller area OR smaller child count) replaces it with
P2 because P2 has fewer children; the code selects index 1, the claim
demands index 0. -/
theorem claim_C6_counterexample :
    let b01 : Box 1 := ⟨fun _ => 0, fun _ => 1⟩
    let b02 : Box 1 := ⟨fun _ => 0, fun _ => 2⟩
    let b04 : Box 1 := ⟨fun _ => 0, fun _ => 4⟩
    let P1 : RNode (Box 1) 1 := .page (some b02) (List.replicate 5 (.leaf b02))
    let P2 : RNode (Box 1) 1 := .page (some b04) (List.replicate 4 (.leaf b04))
    find_best_fit_idx (fun x => x) (some b01) [P1, P2] = some 1 ∧
      find_best_fit_lex (fun x => x) (some b01) [P1, P2] = some 0 ∧
      inc_opt (nbound (fun x => x) P1) (some b01) =
        inc_opt (nbound (fun x => x) P2) (some b01) ∧
      area_opt (nbound (fun x => x) P1) < area_opt (nbound (fun x => x) P2) := by
  intro b01 b02 b04 P1 P2
  refine ⟨?_, ?_, ?_, ?_⟩
  · simp only [find_best_fit_idx, List.enum, List.enumFrom, List.foldl,
      bestStep, inc_opt, area_opt, optUnion, nbound, Box.stretch, Box.area,
      RNode.childCount, Box.area]
    norm_num [Box.stretch, Box.area, RNode.childCount, List.length_replicate]
  · simp only [find_best_fit_lex, List.enum, List.enumFrom, List.foldl,
      bestStepLex, inc_opt, area_opt, optUnion, nbound, Box.stretch, Box.area,
      RNode.childCount]
    norm_num [Box.stretch, Box.area, RNode.childCount, List.length_replicate]
  · simp only [inc_opt, area_opt, optUnion, nbound, Box.stretch, Box.area]
    norm_num
  · simp only [area_opt, nbound, Box.area]
    norm_num

/-- Removing the element at a valid index and re-consing it permutes back. -/
theorem perm_getElem_cons_eraseIdx {α : Type} (l : List α) (i : ℕ) (h : i < l.length) :
    l[i] :: l.eraseIdx i ~ l := by
  conv_rhs => rw [← List.take_append_drop i l]
  rw [List.eraseIdx_eq_take_drop_succ]
  calc l[i] :: (l.take i ++ l.drop (i + 1))
      ~ l.take i ++ l[i] :: l.drop (i + 1) := (List.perm_middle).symm
    _ = l.take i ++ l.drop i := by rw [List.getElem_cons_drop l i h]

/-- Removing two elements at distinct valid indices (larger first). -/
theorem perm_two_eraseIdx {α : Type} (l : List α) (i j : ℕ) (hij : i < j)
    (hj : j < l.length) :
    l.get ⟨i, lt_trans hij hj⟩ :: l[j] :: (l.eraseIdx j).eraseIdx i ~ l := by
  have hi : i < l.length := lt_trans hij hj
  have hi' : i < (l.eraseIdx j).length := by
    rw [List.length_eraseIdx]
    simp only [hj, if_true]
    omega
  have h3q : (l.eraseIdx j)[i]? = l[i]? := by
    rw [List.eraseIdx_eq_take_drop_succ]
    rw [List.getElem?_append_left (by
      simp only [List.length_take]
      omega)]
    exact List.getElem?_take_of_lt hij
  have h3 : (l.eraseIdx j).get ⟨i, hi'⟩ = l.get ⟨i, hi⟩ := by
    have ha : (l.eraseIdx j)[i]? = some ((l.eraseIdx j).get ⟨i, hi'⟩) := by
      rw [List.getElem?_eq_getElem hi']
      simp
    have hb : l[i]? = some (l.get ⟨i, hi⟩) := by
      rw [List.getElem?_eq_getElem hi]
      simp
    rw [ha, hb] at h3q
    injection h3q
  have h2 : (l.eraseIdx j).get ⟨i, hi'⟩ :: (l.eraseIdx j).eraseIdx i ~ l.eraseIdx j := by
    have := perm_getElem_cons_eraseIdx (l.eraseIdx j) i hi'
    simpa using this
  have h1 : l[j] :: l.eraseIdx j ~ l := perm_getElem_cons_eraseIdx l j hj
  calc l.get ⟨i, hi⟩ :: l[j] :: (l.eraseIdx j).eraseIdx i
      ~ l[j] :: l.get ⟨i, hi⟩ :: (l.eraseIdx j).eraseIdx i := List.Perm.swap _ _ _
    _ ~ l[j] :: l.eraseIdx j := List.Perm.cons _ (h3 ▸ h2)
    _ ~ l := h1

/-- Generic invariant for an Option valued strict improvement fold (the
iterator scans of the split strategies). -/
theorem foldl_option_inv {β γ : Type} (f : Option γ → β → Option γ)
    (P : β → Prop) (Q : γ → Prop)
    (hstep : ∀ acc x, P x → (∀ g, acc = some g → Q g) → ∃ y, f acc x = some y ∧ Q y) :
    ∀ (l : List β) (acc : Option γ), (∀ x ∈ l, P x) →
      (∀ g, acc = some g → Q g) → (acc = none → l ≠ []) →
      ∃ y, l.foldl f acc = some y ∧ Q y := by
  intro l
  induction l with
  | nil =>
    intro acc _ hQ hne
    rcases acc with - | g
    · exact absurd rfl (hne rfl)
    · exact ⟨g, by simp, hQ g rfl⟩
  | cons x l' ih =>
    intro acc hP hQ _
    obtain ⟨y, hy, hyQ⟩ := hstep acc x (hP x (by simp)) hQ
    obtain ⟨z, hz, hzQ⟩ := ih (f acc x)
      (fun w hw => hP w (by simp [hw]))
      (fun g hg => by rw [hy] at hg; cases hg; exact hyQ)
      (by intro hcon; rw [hy] at hcon; cases hcon)
    exact ⟨z, by simpa using hz, hzQ⟩

/-- The distribution loop of split_node, specified: it terminates with some
remainder and two accumulators that partition its input, both accumulator
counts stay complementary above the minimum, and a nonempty remainder means
one side hit the minimum exactly. -/
theorem split_loop_spec {V : Type} {n : ℕ} (getB : V → Box n)
    (pickN : List (RNode V n) → Option (Box n) → Option (Box n) → Option (ℕ × Bool))
    (minC : ℕ)
    (hN : ∀ (l : List (RNode V n)) a b, l ≠ [] →
      ∃ idx side, pickN l a b = some (idx, side) ∧ idx < l.length) :
    ∀ (N : ℕ) (parent : List (RNode V n)) (a b : PageAcc V n),
      parent.length ≤ N →
      minC ≤ parent.length + a.2.length → minC ≤ parent.length + b.2.length →
      ∃ rest a' b', split_loop getB pickN minC parent a b = some (rest, a', b') ∧
        (rest ++ a'.2 ++ b'.2) ~ (parent ++ a.2 ++ b.2) ∧
        minC ≤ rest.length + a'.2.length ∧ minC ≤ rest.length + b'.2.length ∧
        (rest = [] ∨ rest.length + a'.2.length ≤ minC ∨
          rest.length + b'.2.length ≤ minC) := by
  intro N
  induction N with
  | zero =>
    intro parent a b hlen hA hB
    have hpe : parent = [] := List.length_eq_zero.mp (Nat.le_zero.mp hlen)
    subst hpe
    refine ⟨[], a, b, ?_, List.Perm.refl _, by simpa using hA, by simpa using hB, Or.inl rfl⟩
    rw [split_loop]
    simp
  | succ N ih =>
    intro parent a b hlen hA hB
    by_cases hg : 0 < parent.length ∧ minC < parent.length + a.2.length ∧
        minC < parent.length + b.2.length
    · obtain ⟨idx, side, hpick, hidx⟩ := hN parent a.1 b.1
        (by intro hcon; rw [hcon] at hg; simp at hg)
      have hperm0 : parent[idx] :: parent.eraseIdx idx ~ parent :=
        perm_getElem_cons_eraseIdx parent idx hidx
      have hlen' : (parent.eraseIdx idx).length = parent.length - 1 := by
        rw [List.length_eraseIdx]
        simp [hidx]
      rcases side with - | -
      -- side = false: place into b
      · obtain ⟨rest, a', b', hrec, hperm, h1, h2, h3⟩ :=
          ih (parent.eraseIdx idx) a (pageIns getB b parent[idx])
            (by omega)
            (by simp only [hlen']; omega)
            (by
              simp only [hlen', pageIns, List.length_append, List.length_cons,
                List.length_nil]
              omega)
        refine ⟨rest, a', b', ?_, ?_, h1, h2, h3⟩
        · rw [split_loop]
          simp only [hg, and_self, if_true, hpick, hidx, dif_pos]
          simpa using hrec
        · refine hperm.trans ?_
          simp only [pageIns]
          calc parent.eraseIdx idx ++ a.2 ++ (b.2 ++ [parent[idx]])
              = (parent.eraseIdx idx ++ a.2 ++ b.2) ++ [parent[idx]] := by simp
            _ ~ parent[idx] :: (parent.eraseIdx idx ++ a.2 ++ b.2) :=
                List.perm_append_singleton _ _
            _ = (parent[idx] :: parent.eraseIdx idx) ++ a.2 ++ b.2 := by simp
            _ ~ parent ++ a.2 ++ b.2 :=
                (hperm0.append (List.Perm.refl a.2)).append (List.Perm.refl b.2)
      -- side = true: place into a
      · obtain ⟨rest, a', b', hrec, hperm, h1, h2, h3⟩ :=
          ih (parent.eraseIdx idx) (pageIns getB a parent[idx]) b
            (by omega)
            (by
              simp only [hlen', pageIns, List.length_append, List.length_cons,
                List.length_nil]
              omega)
            (by simp only [hlen']; omega)
        refine ⟨rest, a', b', ?_, ?_, h1, h2, h3⟩
        · rw [split_loop]
          simp only [hg, and_self, if_true, hpick, hidx, dif_pos]
          simpa using hrec
        · refine hperm.trans ?_
          simp only [pageIns]
          calc parent.eraseIdx idx ++ (a.2 ++ [parent[idx]]) ++ b.2
              = (parent.eraseIdx idx ++ a.2) ++ parent[idx] :: b.2 := by simp
            _ ~ parent[idx] :: (parent.eraseIdx idx ++ a.2 ++ b.2) := by
                refine (List.perm_middle).trans ?_
                simp only [List.append_assoc]
                exact List.Perm.refl _
            _ = (parent[idx] :: parent.eraseIdx idx) ++ a.2 ++ b.2 := by simp
            _ ~ parent ++ a.2 ++ b.2 :=
                (hperm0.append (List.Perm.refl a.2)).append (List.Perm.refl b.2)
    · refine ⟨parent, a, b, ?_, List.Perm.refl _, hA, hB, ?_⟩
      · rw [split_loop]
        simp [hg]
      · by_cases hp : parent = []
        · exact Or.inl hp
        · have hp' : 0 < parent.length := List.length_pos.mpr hp
          rcases not_and_or.mp hg with h | h
          · omega
          rcases not_and_or.mp h with h | h
          · exact Or.inr (Or.inl (by omega))
          · exact Or.inr (Or.inr (by omega))

/-- The dump loop at the end of split_node appends the remainder in order. -/
theorem foldl_pageIns_snd {V : Type} {n : ℕ} (getB : V → Box n) :
    ∀ (rest : List (RNode V n)) (a : PageAcc V n),
      (rest.foldl (pageIns getB) a).2 = a.2 ++ rest := by
  intro rest
  induction rest with
  | nil => intro a; simp
  | cons c cs ih =>
    intro a
    simp only [List.foldl_cons, ih, pageIns, List.append_assoc, List.cons_append,
      List.nil_append, List.singleton_append]

/-- Claim C3: on a page holding max_children + 1 children (the state in
which expand_tree invokes it), split_node of any strategy whose pick_seeds
returns two distinct children and whose pick_next returns a remaining child
produces two pages whose child counts both lie in [min_children,
max_children] and whose children together are exactly the original children
(the original page itself is consumed: the source clears it and asserts it
empty); in particular the structural assertions at the end of split_node
hold. -/
theorem claim_C3_split_node_postcondition {V : Type} {n : ℕ} (getB : V → Box n)
    (pickS : List (RNode V n) → Option (ℕ × ℕ))
    (pickN : List (RNode V n) → Option (Box n) → Option (Box n) → Option (ℕ × Bool))
    (minC maxC : ℕ) (cs : List (RNode V n))
    (hS : ∀ l : List (RNode V n), 2 ≤ l.length →
      ∃ i j, pickS l = some (i, j) ∧ i < l.length ∧ j < l.length ∧ i ≠ j)
    (hN : ∀ (l : List (RNode V n)) a b, l ≠ [] →
      ∃ idx side, pickN l a b = some (idx, side) ∧ idx < l.length)
    (hlen : cs.length = maxC + 1)
    (hminC : 1 ≤ minC) (hhalf : 2 * minC ≤ maxC) :
    ∃ ba csa bb2 csb,
      split_node getB pickS pickN minC cs = some (.page ba csa, .page bb2 csb) ∧
      minC ≤ csa.length ∧ csa.length ≤ maxC ∧
      minC ≤ csb.length ∧ csb.length ≤ maxC ∧
      (csa ++ csb) ~ cs := by
  have hmaxC : 2 ≤ maxC := by omega
  obtain ⟨i, j, hpick, hi, hj, hij⟩ := hS cs (by omega)
  have hperm2 : (cs.get ⟨i, hi⟩) :: (cs.get ⟨j, hj⟩) ::
      (if i < j then (cs.eraseIdx j).eraseIdx i else (cs.eraseIdx i).eraseIdx j) ~ cs := by
    rcases lt_or_gt_of_ne hij with hlt | hgt
    · rw [if_pos hlt]
      have := perm_two_eraseIdx cs i j hlt hj
      simpa using this
    · rw [if_neg (by omega)]
      have := perm_two_eraseIdx cs j i hgt hi
      refine List.Perm.trans (List.Perm.swap _ _ _) ?_
      simpa using this
  set parent0 := (if i < j then (cs.eraseIdx j).eraseIdx i else (cs.eraseIdx i).eraseIdx j)
    with hparent0
  have hlenp : parent0.length + 2 = maxC + 1 := by
    have := hperm2.length_eq
    simp at this
    omega
  have ha0 : (pageIns getB (none, []) (cs.get ⟨i, hi⟩)).2 = [cs.get ⟨i, hi⟩] := by
    simp [pageIns]
  have hb0 : (pageIns getB (none, []) (cs.get ⟨j, hj⟩)).2 = [cs.get ⟨j, hj⟩] := by
    simp [pageIns]
  obtain ⟨rest, a', b', hloop, hperm, h1, h2, h3⟩ :=
    split_loop_spec getB pickN minC hN parent0.length parent0
      (pageIns getB (none, []) (cs.get ⟨i, hi⟩))
      (pageIns getB (none, []) (cs.get ⟨j, hj⟩))
      le_rfl
      (by rw [ha0]; simp; omega)
      (by rw [hb0]; simp; omega)
  have hperm' : (rest ++ a'.2 ++ b'.2) ~ cs := by
    refine hperm.trans ?_
    rw [ha0, hb0]
    refine List.Perm.trans ?_ hperm2
    calc parent0 ++ [cs.get ⟨i, hi⟩] ++ [cs.get ⟨j, hj⟩]
        = (parent0 ++ [cs.get ⟨i, hi⟩]) ++ [cs.get ⟨j, hj⟩] := by simp
      _ ~ cs.get ⟨j, hj⟩ :: (parent0 ++ [cs.get ⟨i, hi⟩]) :=
          List.perm_append_singleton _ _
      _ ~ cs.get ⟨j, hj⟩ :: (cs.get ⟨i, hi⟩ :: parent0) :=
          List.Perm.cons _ (List.perm_append_singleton _ _)
      _ ~ cs.get ⟨i, hi⟩ :: cs.get ⟨j, hj⟩ :: parent0 := List.Perm.swap _ _ _
  have htot : rest.length + a'.2.length + b'.2.length = maxC + 1 := by
    have := hperm'.length_eq
    simp at this
    omega
  have hsplit_eq : split_node getB pickS pickN minC cs =
      (if 0 < rest.length then
        if a'.2.length < minC then
          some (.page (rest.foldl (pageIns getB) a').1 (rest.foldl (pageIns getB) a').2,
            .page b'.1 b'.2)
        else
          some (.page a'.1 a'.2,
            .page (rest.foldl (pageIns getB) b').1 (rest.foldl (pageIns getB) b').2)
      else some (.page a'.1 a'.2, .page b'.1 b'.2)) := by
    rw [split_node]
    simp only [hpick]
    rw [dif_pos ⟨hi, hj, hij⟩]
    simp only [← hparent0]
    rw [hloop]
  rcases Nat.eq_zero_or_pos rest.length with hr0 | hrpos
  · have hre : rest = [] := List.length_eq_zero.mp hr0
    refine ⟨a'.1, a'.2, b'.1, b'.2, ?_, ?_, ?_, ?_, ?_, ?_⟩
    · rw [hsplit_eq, if_neg (by omega)]
    · omega
    · omega
    · omega
    · omega
    · subst hre; simpa using hperm'
  · have hone : ¬ (rest.length + a'.2.length ≤ minC ∧ rest.length + b'.2.length ≤ minC) := by
      rintro ⟨hA, hB⟩
      omega
    rcases h3 with hre | hcase | hcase
    · exact absurd hre (by intro hcon; rw [hcon] at hrpos; simp at hrpos)
    · -- a side hit the minimum exactly: dump the remainder into a
      have heqA : rest.length + a'.2.length = minC := le_antisymm hcase h1
      have haLT : a'.2.length < minC := by omega
      refine ⟨(rest.foldl (pageIns getB) a').1, (rest.foldl (pageIns getB) a').2,
        b'.1, b'.2, ?_, ?_, ?_, ?_, ?_, ?_⟩
      · rw [hsplit_eq, if_pos hrpos, if_pos haLT]
      · rw [foldl_pageIns_snd]
        simp
        omega
      · rw [foldl_pageIns_snd]
        simp
        omega
      · omega
      · omega
      · rw [foldl_pageIns_snd]
        refine List.Perm.trans ?_ hperm'
        calc (a'.2 ++ rest) ++ b'.2
            ~ (rest ++ a'.2) ++ b'.2 :=
              (List.perm_append_comm).append (List.Perm.refl _)
          _ = rest ++ a'.2 ++ b'.2 := by simp
    · -- b side hit the minimum exactly: dump the remainder into b
      have heqB : rest.length + b'.2.length = minC := le_antisymm hcase h2
      have haGE : ¬ a'.2.length < minC := by omega
      refine ⟨a'.1, a'.2, (rest.foldl (pageIns getB) b').1,
        (rest.foldl (pageIns getB) b').2, ?_, ?_, ?_, ?_, ?_, ?_⟩
      · rw [hsplit_eq, if_pos hrpos, if_neg haGE]
      · omega
      · omega
      · rw [foldl_pageIns_snd]
        simp
        omega
      · rw [foldl_pageIns_snd]
        simp
        omega
      · rw [foldl_pageIns_snd]
        refine List.Perm.trans ?_ hperm'
        calc a'.2 ++ (b'.2 ++ rest)
            = (a'.2 ++ b'.2) ++ rest := by simp
          _ ~ rest ++ (a'.2 ++ b'.2) := List.perm_append_comm
          _ ~ (a'.2 ++ b'.2) ++ rest := List.perm_append_comm
          _ ~ rest ++ a'.2 ++ b'.2 := by
              refine List.Perm.trans List.perm_append_comm ?_
              simp only [List.append_assoc]
              exact List.Perm.refl _

/-- Quadratic::pick_next always picks a valid index from a nonempty child
list. -/
theorem quadPickNext_valid {V : Type} {n : ℕ} (getB : V → Box n)
    (l : List (RNode V n)) (a b : Option (Box n)) (hne : l ≠ []) :
    ∃ idx side, quadPickNext getB l a b = some (idx, side) ∧ idx < l.length := by
  obtain ⟨y, hy, hyQ⟩ := foldl_option_inv
    (f := quadNextStep getB a b)
    (P := fun ic => ic.1 < l.length)
    (Q := fun r => r.2.1 < l.length)
    (by
      intro acc x hx hQ
      rcases acc with - | g
      · refine ⟨_, rfl, ?_⟩
        simpa [quadNextStep] using hx
      · obtain ⟨d, i, s⟩ := g
        by_cases hgt : |inc_opt a (nbound getB x.2) - inc_opt b (nbound getB x.2)| > d
        · refine ⟨(|inc_opt a (nbound getB x.2) - inc_opt b (nbound getB x.2)|, x.1,
            decide (inc_opt a (nbound getB x.2) < inc_opt b (nbound getB x.2))), ?_, ?_⟩
          · simp only [quadNextStep, if_pos hgt]
          · simpa using hx
        · refine ⟨(d, i, s), ?_, hQ (d, i, s) rfl⟩
          simp only [quadNextStep, if_neg hgt])
    l.enum none
    (by
      intro x hx
      have := List.mem_enum_iff_getElem?.mp hx
      exact (List.getElem?_eq_some_iff.mp this).1)
    (by intro g hg; cases hg)
    (by
      intro _ hcon
      apply hne
      have : l.enum.length = 0 := by rw [hcon]; simp
      simpa using this)
  refine ⟨y.2.1, y.2.2, ?_, hyQ⟩
  rw [quadPickNext, hy]
  rfl

/-- Quadratic::pick_seeds always picks two distinct valid indices from a
child list of at least two entries. -/
theorem quadPickSeeds_valid {V : Type} {n : ℕ} (getB : V → Box n)
    (l : List (RNode V n)) (h2 : 2 ≤ l.length) :
    ∃ i j, quadPickSeeds getB l = some (i, j) ∧ i < l.length ∧ j < l.length ∧ i ≠ j := by
  have hP : ∀ pq ∈ seedPairs l,
      pq.1.1 < l.length ∧ pq.2.1 < l.length ∧ pq.1.1 < pq.2.1 := by
    intro pq hpq
    rw [seedPairs] at hpq
    obtain ⟨p, hp, hq⟩ := List.mem_flatMap.mp hpq
    obtain ⟨q, hqd, hpq'⟩ := List.mem_map.mp hq
    subst hpq'
    have hp1 : p.1 < l.length := by
      have := List.mem_enum_iff_getElem?.mp hp
      exact (List.getElem?_eq_some_iff.mp this).1
    obtain ⟨m, hm, hqe⟩ := List.mem_iff_getElem.mp hqd
    have hm2 : m < l.length - (p.1 + 1) := by
      rw [List.length_drop, List.enum_length] at hm
      exact hm
    have hm3 : p.1 + 1 + m < l.enum.length := by
      rw [List.enum_length]
      omega
    have hq1 : q.1 = p.1 + 1 + m := by
      have hdrop : (l.enum.drop (p.1 + 1))[m] = l.enum[p.1 + 1 + m] :=
        List.getElem_drop _
      rw [hdrop, List.getElem_enum l (p.1 + 1 + m) hm3] at hqe
      rw [← hqe]
    have hql : q.1 < l.length := by omega
    have hpq2 : p.1 < q.1 := by omega
    exact ⟨hp1, hql, hpq2⟩
  have hlen0 : 0 < l.enum.length := by rw [List.enum_length]; omega
  have hlen1 : 1 < l.enum.length := by rw [List.enum_length]; omega
  have hne : seedPairs l ≠ [] := by
    rw [seedPairs]
    have h0 : l.enum.get ⟨0, hlen0⟩ ∈ l.enum := List.get_mem _ _ _
    have hd0 : 0 < (l.enum.drop ((l.enum.get ⟨0, hlen0⟩).1 + 1)).length := by
      have he0 : (l.enum.get ⟨0, hlen0⟩).1 = 0 := by
        have := List.getElem_enum l 0 hlen0
        simp only [List.get_eq_getElem]
        rw [this]
      rw [he0, List.length_drop, List.enum_length]
      omega
    have h1 : (l.enum.drop ((l.enum.get ⟨0, hlen0⟩).1 + 1)).get ⟨0, hd0⟩ ∈
        l.enum.drop ((l.enum.get ⟨0, hlen0⟩).1 + 1) := List.get_mem _ _ _
    intro hcon
    have hmem : (l.enum.get ⟨0, hlen0⟩,
        (l.enum.drop ((l.enum.get ⟨0, hlen0⟩).1 + 1)).get ⟨0, hd0⟩) ∈ (l.enum.flatMap
        (fun p => ((l.enum.drop (p.1 + 1)).map (fun q => (p, q))))) := by
      refine List.mem_flatMap.mpr ⟨_, h0, ?_⟩
      exact List.mem_map.mpr ⟨_, h1, rfl⟩
    rw [hcon] at hmem
    cases hmem
  obtain ⟨y, hy, hyQ⟩ := foldl_option_inv
    (f := quadSeedStep getB)
    (P := fun pq => pq.1.1 < l.length ∧ pq.2.1 < l.length ∧ pq.1.1 < pq.2.1)
    (Q := fun r => r.2.1 < l.length ∧ r.2.2 < l.length ∧ r.2.1 < r.2.2)
    (by
      intro acc x hx hQ
      rcases acc with - | g
      · refine ⟨_, rfl, ?_⟩
        simpa [quadSeedStep] using hx
      · obtain ⟨w, i, j⟩ := g
        by_cases hgt : area_opt (optUnion (nbound getB x.1.2) (nbound getB x.2.2)) -
            area_opt (nbound getB x.1.2) - area_opt (nbound getB x.2.2) > w
        · refine ⟨(area_opt (optUnion (nbound getB x.1.2) (nbound getB x.2.2)) -
            area_opt (nbound getB x.1.2) - area_opt (nbound getB x.2.2),
            x.1.1, x.2.1), ?_, ?_⟩
          · simp only [quadSeedStep, if_pos hgt]
          · simpa using hx
        · refine ⟨(w, i, j), ?_, hQ (w, i, j) rfl⟩
          simp only [quadSeedStep, if_neg hgt])
    (seedPairs l) none hP
    (by intro g hg; cases hg)
    (by intro _ hcon; exact absurd hcon hne)
  refine ⟨y.2.1, y.2.2, ?_, hyQ.1, hyQ.2.1, by omega⟩
  rw [quadPickSeeds, hy]
  rfl

/-- Witness for claim C3: the quadratic strategy with min 4 and max 10 on a
page of 11 identical leaves. -/
theorem claim_C3_witness :
    let b01 : Box 1 := ⟨fun _ => 0, fun _ => 1⟩
    let cs : List (RNode (Box 1) 1) := List.replicate 11 (.leaf b01)
    ∃ ba csa bb2 csb,
      split_node (fun x => x) (quadPickSeeds (fun x => x))
          (quadPickNext (fun x => x)) 4 cs = some (.page ba csa, .page bb2 csb) ∧
      4 ≤ csa.length ∧ csa.length ≤ 10 ∧
      4 ≤ csb.length ∧ csb.length ≤ 10 ∧
      (csa ++ csb) ~ cs := by
  intro b01 cs
  exact claim_C3_split_node_postcondition (fun x => x) _ _ 4 10 cs
    (fun l hl => quadPickSeeds_valid (fun x => x) l hl)
    (fun l a b hl => quadPickNext_valid (fun x => x) l a b hl)
    (by simp [cs])
    (by omega)
    (by omega)

/-! ### Algebra of the stretch operation and of page bounds -/

theorem stretch_comm {n : ℕ} (a b : Box n) : a.stretch b = b.stretch a := by
  simp only [Box.stretch, Box.mk.injEq]
  constructor <;> funext i
  · exact min_comm _ _
  · exact max_comm _ _

theorem stretch_assoc {n : ℕ} (a b c : Box n) :
    (a.stretch b).stretch c = a.stretch (b.stretch c) := by
  simp only [Box.stretch, Box.mk.injEq]
  constructor <;> funext i
  · exact min_assoc _ _ _
  · exact max_assoc _ _ _

theorem stretch_self {n : ℕ} (a : Box n) : a.stretch a = a := by
  simp only [Box.stretch]
  cases a with
  | mk mn mx =>
    simp only [Box.mk.injEq]
    constructor <;> funext i <;> simp

theorem optUnion_none_right {n : ℕ} (a : Option (Box n)) : optUnion a none = a := by
  cases a <;> rfl

theorem optUnion_comm {n : ℕ} (a b : Option (Box n)) : optUnion a b = optUnion b a := by
  cases a <;> cases b <;> simp [optUnion, stretch_comm]

theorem optUnion_assoc {n : ℕ} (a b c : Option (Box n)) :
    optUnion (optUnion a b) c = optUnion a (optUnion b c) := by
  cases a <;> cases b <;> cases c <;> simp [optUnion, stretch_assoc]

theorem optUnion_self {n : ℕ} (a : Option (Box n)) : optUnion a a = a := by
  cases a <;> simp [optUnion, stretch_self]

theorem optUnion_left_comm {n : ℕ} (a b c : Option (Box n)) :
    optUnion (optUnion a b) c = optUnion (optUnion a c) b := by
  rw [optUnion_assoc, optUnion_assoc, optUnion_comm b c]

/-- Absorption: joining a part of a union changes nothing. -/
theorem optUnion_absorb {n : ℕ} (a b : Option (Box n)) :
    optUnion (optUnion a b) b = optUnion a b := by
  rw [optUnion_assoc, optUnion_self]

section UnionBoundsLemmas

variable {V : Type} {n : ℕ} (getB : V → Box n)

theorem unionBounds_foldl_init (l : List (RNode V n)) :
    ∀ acc : Option (Box n),
      l.foldl (fun a c => optUnion a (nbound getB c)) acc =
        optUnion acc (unionBounds getB l) := by
  induction l with
  | nil => intro acc; simp [unionBounds, optUnion_none_right]
  | cons c cs ih =>
    intro acc
    simp only [List.foldl_cons]
    rw [ih]
    have hrhs : unionBounds getB (c :: cs) =
        optUnion (optUnion none (nbound getB c)) (unionBounds getB cs) := by
      show List.foldl _ _ (c :: cs) = _
      simp only [List.foldl_cons]
      rw [ih]
    rw [hrhs, optUnion_assoc]
    rfl

theorem unionBounds_cons (c : RNode V n) (cs : List (RNode V n)) :
    unionBounds getB (c :: cs) = optUnion (nbound getB c) (unionBounds getB cs) := by
  show (c :: cs).foldl (fun a x => optUnion a (nbound getB x)) none = _
  simp only [List.foldl_cons]
  rw [unionBounds_foldl_init]
  rfl

theorem unionBounds_append (l1 l2 : List (RNode V n)) :
    unionBounds getB (l1 ++ l2) =
      optUnion (unionBounds getB l1) (unionBounds getB l2) := by
  show (l1 ++ l2).foldl (fun a x => optUnion a (nbound getB x)) none = _
  rw [List.foldl_append]
  rw [unionBounds_foldl_init]
  rfl

theorem unionBounds_perm {l1 l2 : List (RNode V n)} (h : l1 ~ l2) :
    unionBounds getB l1 = unionBounds getB l2 := by
  induction h with
  | nil => rfl
  | cons x _ ih => rw [unionBounds_cons, unionBounds_cons, ih]
  | swap x y l =>
    rw [unionBounds_cons, unionBounds_cons, unionBounds_cons, unionBounds_cons,
      ← optUnion_assoc, ← optUnion_assoc, optUnion_comm (nbound getB y) (nbound getB x)]
  | trans _ _ ih1 ih2 => rw [ih1, ih2]

/-- Decomposition of a list at a valid index. -/
theorem unionBounds_getElem_split (cs : List (RNode V n)) (i : ℕ) (hi : i < cs.length) :
    unionBounds getB cs =
      optUnion (nbound getB cs[i])
        (unionBounds getB (cs.take i ++ cs.drop (i + 1))) := by
  have hperm : cs ~ cs[i] :: (cs.take i ++ cs.drop (i + 1)) := by
    have := perm_getElem_cons_eraseIdx cs i hi
    rw [List.eraseIdx_eq_take_drop_succ] at this
    exact this.symm
  rw [unionBounds_perm getB hperm, unionBounds_cons]

/-- unionBounds after replacing the child at a valid index. -/
theorem unionBounds_set (cs : List (RNode V n)) (i : ℕ) (hi : i < cs.length)
    (c' : RNode V n) :
    unionBounds getB (cs.set i c') =
      optUnion (nbound getB c')
        (unionBounds getB (cs.take i ++ cs.drop (i + 1))) := by
  rw [List.set_eq_take_cons_drop c' hi]
  rw [unionBounds_append, unionBounds_cons, ← optUnion_assoc,
    optUnion_comm (unionBounds getB (cs.take i)) (nbound getB c'), optUnion_assoc,
    ← unionBounds_append]

/-- unionBounds after erasing the child at a valid index. -/
theorem unionBounds_eraseIdx (cs : List (RNode V n)) (i : ℕ) (hi : i < cs.length) :
    unionBounds getB (cs.eraseIdx i) =
      unionBounds getB (cs.take i ++ cs.drop (i + 1)) := by
  rw [List.eraseIdx_eq_take_drop_succ]

end UnionBoundsLemmas

/-! ### Preservation of the bound invariant (claim C4 support) -/

theorem WFbL_iff {V : Type} {n : ℕ} (getB : V → Box n) :
    ∀ cs : List (RNode V n), WFbL getB cs = true ↔ ∀ c ∈ cs, WFb getB c = true := by
  intro cs
  induction cs with
  | nil => simp [WFbL]
  | cons c cs ih =>
    simp only [WFbL, Bool.and_eq_true, ih, List.mem_cons]
    constructor
    · rintro ⟨h1, h2⟩ x (hx | hx)
      · subst hx; exact h1
      · exact h2 x hx
    · intro h
      exact ⟨h c (Or.inl rfl), fun x hx => h x (Or.inr hx)⟩

theorem WFb_page_iff {V : Type} {n : ℕ} (getB : V → Box n)
    (b : Option (Box n)) (cs : List (RNode V n)) :
    WFb getB (.page b cs) = true ↔
      (b = unionBounds getB cs ∧ ∀ c ∈ cs, WFb getB c = true) := by
  simp only [WFb, Bool.and_eq_true, decide_eq_true_eq, WFbL_iff]

theorem foldl_pageIns_fst {V : Type} {n : ℕ} (getB : V → Box n) :
    ∀ (l : List (RNode V n)) (a : PageAcc V n),
      (l.foldl (pageIns getB) a).1 = optUnion a.1 (unionBounds getB l) := by
  intro l
  induction l with
  | nil => intro a; simp [unionBounds, optUnion_none_right]
  | cons c cs ih =>
    intro a
    simp only [List.foldl_cons]
    rw [ih]
    simp only [pageIns]
    rw [unionBounds_cons, ← optUnion_assoc]

/-- The dump fold keeps a page accumulator whose bound is the union of its
children. -/
theorem foldl_pageIns_inv {V : Type} {n : ℕ} (getB : V → Box n)
    (l : List (RNode V n)) (a : PageAcc V n) (ha : a.1 = unionBounds getB a.2) :
    (l.foldl (pageIns getB) a).1 = unionBounds getB (l.foldl (pageIns getB) a).2 := by
  rw [foldl_pageIns_fst, foldl_pageIns_snd, ha, unionBounds_append]

/-- pageIns keeps the bound equal to the union of the children. -/
theorem pageIns_inv {V : Type} {n : ℕ} (getB : V → Box n)
    (a : PageAcc V n) (c : RNode V n) (ha : a.1 = unionBounds getB a.2) :
    (pageIns getB a c).1 = unionBounds getB (pageIns getB a c).2 := by
  show optUnion a.1 (nbound getB c) = unionBounds getB (a.2 ++ [c])
  rw [ha, unionBounds_append, unionBounds_cons]
  have hnil : unionBounds getB ([] : List (RNode V n)) = none := rfl
  rw [hnil, optUnion_none_right]

/-- Conditional specification of the distribution loop: whenever it
answers, the remainder and the two accumulators partition the input, and
page accumulators whose bound was the union of their children keep that
property. -/
theorem split_loop_some_spec {V : Type} {n : ℕ} (getB : V → Box n)
    (pickN : List (RNode V n) → Option (Box n) → Option (Box n) → Option (ℕ × Bool))
    (minC : ℕ) :
    ∀ (N : ℕ) (parent : List (RNode V n)) (a b : PageAcc V n)
      (rest : List (RNode V n)) (a' b' : PageAcc V n),
      parent.length ≤ N →
      split_loop getB pickN minC parent a b = some (rest, a', b') →
      ((rest ++ a'.2 ++ b'.2) ~ (parent ++ a.2 ++ b.2) ∧
        (a.1 = unionBounds getB a.2 → a'.1 = unionBounds getB a'.2) ∧
        (b.1 = unionBounds getB b.2 → b'.1 = unionBounds getB b'.2)) := by
  intro N
  induction N with
  | zero =>
    intro parent a b rest a' b' hlen heq
    have hpe : parent = [] := List.length_eq_zero.mp (Nat.le_zero.mp hlen)
    subst hpe
    rw [split_loop] at heq
    simp at heq
    obtain ⟨h1, h2, h3⟩ := heq
    subst h1; subst h2; subst h3
    exact ⟨List.Perm.refl _, fun h => h, fun h => h⟩
  | succ N ih =>
    intro parent a b rest a' b' hlen heq
    rw [split_loop] at heq
    by_cases hg : 0 < parent.length ∧ minC < parent.length + a.2.length ∧
        minC < parent.length + b.2.length
    · rw [if_pos hg] at heq
      rcases hpick : pickN parent a.1 b.1 with - | is
      · rw [hpick] at heq; cases heq
      · obtain ⟨idx, side⟩ := is
        rw [hpick] at heq
        dsimp only at heq
        by_cases hidx : idx < parent.length
        · rw [dif_pos hidx] at heq
          have hperm0 : parent[idx] :: parent.eraseIdx idx ~ parent :=
            perm_getElem_cons_eraseIdx parent idx hidx
          have hlen' : (parent.eraseIdx idx).length ≤ N := by
            rw [List.length_eraseIdx]
            simp only [hidx, if_true]
            omega
          rcases side with - | -
          · -- placed into b
            simp only [Bool.false_eq_true, if_false] at heq
            obtain ⟨hperm, hA, hB⟩ := ih _ _ _ _ _ _ hlen' heq
            refine ⟨?_, hA, fun hb => hB (pageIns_inv getB b _ hb)⟩
            refine hperm.trans ?_
            simp only [pageIns]
            calc parent.eraseIdx idx ++ a.2 ++ (b.2 ++ [parent[idx]])
                = (parent.eraseIdx idx ++ a.2 ++ b.2) ++ [parent[idx]] := by simp
              _ ~ parent[idx] :: (parent.eraseIdx idx ++ a.2 ++ b.2) :=
                  List.perm_append_singleton _ _
              _ = (parent[idx] :: parent.eraseIdx idx) ++ a.2 ++ b.2 := by simp
              _ ~ parent ++ a.2 ++ b.2 :=
                  (hperm0.append (List.Perm.refl a.2)).append (List.Perm.refl b.2)
          · -- placed into a
            simp only [if_true] at heq
            obtain ⟨hperm, hA, hB⟩ := ih _ _ _ _ _ _ hlen' heq
            refine ⟨?_, fun ha => hA (pageIns_inv getB a _ ha), hB⟩
            refine hperm.trans ?_
            simp only [pageIns]
            calc parent.eraseIdx idx ++ (a.2 ++ [parent[idx]]) ++ b.2
                = (parent.eraseIdx idx ++ a.2) ++ parent[idx] :: b.2 := by simp
              _ ~ parent[idx] :: (parent.eraseIdx idx ++ a.2 ++ b.2) := by
                  refine (List.perm_middle).trans ?_
                  simp only [List.append_assoc]
                  exact List.Perm.refl _
              _ = (parent[idx] :: parent.eraseIdx idx) ++ a.2 ++ b.2 := by simp
              _ ~ parent ++ a.2 ++ b.2 :=
                  (hperm0.append (List.Perm.refl a.2)).append (List.Perm.refl b.2)
        · rw [dif_neg hidx] at heq
          cases heq
    · rw [if_neg hg] at heq
      injection heq with heq'
      injection heq' with h1 heq''
      injection heq'' with h2 h3
      subst h1; subst h2; subst h3
      exact ⟨List.Perm.refl _, fun h => h, fun h => h⟩

/-- Conditional specification of split_node: whenever it answers, the two
pages carry bounds equal to the unions of their child lists, and those
child lists partition the input children. -/
theorem split_node_some_spec {V : Type} {n : ℕ} (getB : V → Box n)
    (pickS : List (RNode V n) → Option (ℕ × ℕ))
    (pickN : List (RNode V n) → Option (Box n) → Option (Box n) → Option (ℕ × Bool))
    (minC : ℕ) (cs : List (RNode V n)) (A B : RNode V n)
    (heq : split_node getB pickS pickN minC cs = some (A, B)) :
    ∃ csa csb, A = .page (unionBounds getB csa) csa ∧
      B = .page (unionBounds getB csb) csb ∧ (csa ++ csb) ~ cs := by
  rw [split_node] at heq
  rcases hpick : pickS cs with - | ij
  · rw [hpick] at heq; cases heq
  obtain ⟨i, j⟩ := ij
  rw [hpick] at heq
  dsimp only at heq
  by_cases hij : i < cs.length ∧ j < cs.length ∧ i ≠ j
  · rw [dif_pos hij] at heq
    obtain ⟨hi, hj, hne⟩ := hij
    set parent0 := (if i < j then (cs.eraseIdx j).eraseIdx i else (cs.eraseIdx i).eraseIdx j)
      with hparent0
    have hperm2 : (cs.get ⟨i, hi⟩) :: (cs.get ⟨j, hj⟩) :: parent0 ~ cs := by
      rw [hparent0]
      rcases lt_or_gt_of_ne hne with hlt | hgt
      · rw [if_pos hlt]
        have := perm_two_eraseIdx cs i j hlt hj
        simpa using this
      · rw [if_neg (by omega)]
        have := perm_two_eraseIdx cs j i hgt hi
        refine List.Perm.trans (List.Perm.swap _ _ _) ?_
        simpa using this
    rcases hloop : split_loop getB pickN minC parent0
        (pageIns getB (none, []) (cs.get ⟨i, hi⟩))
        (pageIns getB (none, []) (cs.get ⟨j, hj⟩)) with - | rab
    · rw [hloop] at heq; cases heq
    obtain ⟨rest, a', b'⟩ := rab
    rw [hloop] at heq
    dsimp only at heq
    have hinit : ∀ s : RNode V n, (pageIns getB (none, []) s).1 =
        unionBounds getB (pageIns getB (none, []) s).2 := by
      intro s
      simp [pageIns, unionBounds, optUnion_none_right]
    obtain ⟨hperm, hA, hB⟩ := split_loop_some_spec getB pickN minC parent0.length
      parent0 _ _ rest a' b' le_rfl hloop
    have hA' := hA (hinit _)
    have hB' := hB (hinit _)
    have hperm' : (rest ++ a'.2 ++ b'.2) ~ cs := by
      refine hperm.trans ?_
      simp only [pageIns, List.nil_append]
      calc parent0 ++ [cs.get ⟨i, hi⟩] ++ [cs.get ⟨j, hj⟩]
          = (parent0 ++ [cs.get ⟨i, hi⟩]) ++ [cs.get ⟨j, hj⟩] := by simp
        _ ~ cs.get ⟨j, hj⟩ :: (parent0 ++ [cs.get ⟨i, hi⟩]) :=
            List.perm_append_singleton _ _
        _ ~ cs.get ⟨j, hj⟩ :: (cs.get ⟨i, hi⟩ :: parent0) :=
            List.Perm.cons _ (List.perm_append_singleton _ _)
        _ ~ cs.get ⟨i, hi⟩ :: cs.get ⟨j, hj⟩ :: parent0 := List.Perm.swap _ _ _
        _ ~ cs := hperm2
    by_cases hr : 0 < rest.length
    · rw [if_pos hr] at heq
      by_cases hsz : a'.2.length < minC
      · rw [if_pos hsz] at heq
        injection heq with heq'
        injection heq' with hAe hBe
        refine ⟨(rest.foldl (pageIns getB) a').2, b'.2, ?_, ?_, ?_⟩
        · rw [← hAe, foldl_pageIns_inv getB rest a' hA']
        · rw [← hBe, hB']
        · rw [foldl_pageIns_snd]
          refine List.Perm.trans ?_ hperm'
          calc (a'.2 ++ rest) ++ b'.2
              ~ (rest ++ a'.2) ++ b'.2 :=
                (List.perm_append_comm).append (List.Perm.refl _)
            _ = rest ++ a'.2 ++ b'.2 := by simp
      · rw [if_neg hsz] at heq
        injection heq with heq'
        injection heq' with hAe hBe
        refine ⟨a'.2, (rest.foldl (pageIns getB) b').2, ?_, ?_, ?_⟩
        · rw [← hAe, hA']
        · rw [← hBe, foldl_pageIns_inv getB rest b' hB']
        · rw [foldl_pageIns_snd]
          refine List.Perm.trans ?_ hperm'
          calc a'.2 ++ (b'.2 ++ rest)
              = (a'.2 ++ b'.2) ++ rest := by simp
            _ ~ rest ++ (a'.2 ++ b'.2) := List.perm_append_comm
            _ = rest ++ a'.2 ++ b'.2 := by simp
    · rw [if_neg hr] at heq
      injection heq with heq'
      injection heq' with hAe hBe
      refine ⟨a'.2, b'.2, ?_, ?_, ?_⟩
      · rw [← hAe, hA']
      · rw [← hBe, hB']
      · have hre : rest = [] := by
          cases rest with
          | nil => rfl
          | cons x xs => simp at hr
        rw [hre] at hperm'
        simpa using hperm'
  · rw [dif_neg hij] at heq
    cases heq

/-- splitCheck keeps the bound invariant: the replacement node, or both
halves of the split pair, are well formed and their bounds join to the
incoming page bound. -/
theorem splitCheck_WF {V : Type} {n : ℕ} (getB : V → Box n) (maxC minC : ℕ)
    (b : Option (Box n)) (cs : List (RNode V n)) (r : RNode V n ⊕ RNode V n × RNode V n)
    (hb : b = unionBounds getB cs) (hcs : ∀ c ∈ cs, WFb getB c = true)
    (heq : splitCheck getB maxC minC b cs = some r) :
    (match r with
     | .inl t' => WFb getB t' = true ∧ nbound getB t' = b
     | .inr (x, y) => WFb getB x = true ∧ WFb getB y = true ∧
        optUnion (nbound getB x) (nbound getB y) = b) := by
  rw [splitCheck] at heq
  by_cases hover : maxC < cs.length
  · rw [if_pos hover] at heq
    rcases hsp : split_node getB (quadPickSeeds getB) (quadPickNext getB) minC cs
      with - | AB
    · rw [hsp] at heq; cases heq
    obtain ⟨A, B⟩ := AB
    rw [hsp] at heq
    simp only [Option.map_some'] at heq
    injection heq with heq'
    subst heq'
    obtain ⟨csa, csb, hAe, hBe, hperm⟩ := split_node_some_spec getB _ _ minC cs A B hsp
    have hmem : ∀ c, (c ∈ csa ∨ c ∈ csb) → WFb getB c = true := by
      intro c hc
      apply hcs
      exact hperm.subset (List.mem_append.mpr hc)
    subst hAe
    subst hBe
    refine ⟨?_, ?_, ?_⟩
    · rw [WFb_page_iff]
      exact ⟨rfl, fun c hc => hmem c (Or.inl hc)⟩
    · rw [WFb_page_iff]
      exact ⟨rfl, fun c hc => hmem c (Or.inr hc)⟩
    · show optUnion (unionBounds getB csa) (unionBounds getB csb) = b
      rw [← unionBounds_append, unionBounds_perm getB hperm, hb]
  · rw [if_neg hover] at heq
    injection heq with heq'
    subst heq'
    refine ⟨?_, rfl⟩
    rw [WFb_page_iff]
    exact ⟨hb, hcs⟩

theorem optUnion_absorb_left {n : ℕ} (a x : Option (Box n)) :
    optUnion a (optUnion a x) = optUnion a x := by
  rw [← optUnion_assoc, optUnion_self]

/-- The insert here arm of the descent: appending the placed node to a well
formed page and running the overflow check. -/
theorem insHere_WF {V : Type} {n : ℕ} (getB : V → Box n) (maxC minC : ℕ)
    (b : Option (Box n)) (cs : List (RNode V n)) (pn : RNode V n)
    (res : RNode V n ⊕ RNode V n × RNode V n) (pb : Option (Box n))
    (hb : b = unionBounds getB cs) (hcs : ∀ c ∈ cs, WFb getB c = true)
    (hpn : WFb getB pn = true)
    (heq : (splitCheck getB maxC minC (optUnion b (nbound getB pn)) (cs ++ [pn])).map
      (fun r => (r, optUnion b (nbound getB pn))) = some (res, pb)) :
    (match res with
     | .inl t' => WFb getB t' = true ∧ nbound getB t' = optUnion b pb
     | .inr (x, y) => WFb getB x = true ∧ WFb getB y = true ∧
        optUnion (nbound getB x) (nbound getB y) = optUnion b pb) := by
  obtain ⟨r, hr, hmap⟩ := Option.map_eq_some'.mp heq
  injection hmap with hres hpb
  subst hres
  have hb' : optUnion b (nbound getB pn) = unionBounds getB (cs ++ [pn]) := by
    rw [hb, unionBounds_append, unionBounds_cons]
    have hnil : unionBounds getB ([] : List (RNode V n)) = none := rfl
    rw [hnil, optUnion_none_right]
  have hcs' : ∀ c ∈ cs ++ [pn], WFb getB c = true := by
    intro c hc
    rcases List.mem_append.mp hc with hc | hc
    · exact hcs c hc
    · simp at hc
      subst hc
      exact hpn
  have hout := splitCheck_WF getB maxC minC _ _ r hb' hcs' hr
  have hbpb : optUnion b pb = optUnion b (nbound getB pn) := by
    rw [← hpb, optUnion_absorb_left]
  rcases r with t' | xy
  · exact ⟨hout.1, by rw [hout.2, hbpb]⟩
  · obtain ⟨x, y⟩ := xy
    exact ⟨hout.1, hout.2.1, by rw [hout.2.2, hbpb]⟩

/-- The descent and ascent of one insertion preserve the bound invariant:
the replacement node (or the two halves) are well formed and their bound
joins the old bound with the bottom page bound. -/
theorem insGo_WF {V : Type} {n : ℕ} (getB : V → Box n) (maxC minC : ℕ) :
    ∀ (N : ℕ) (t pn : RNode V n),
      RNode.sizeN t ≤ N →
      WFb getB t = true → WFb getB pn = true →
      ∀ res pb, insGo getB maxC minC t pn = some (res, pb) →
        (match res with
         | .inl t' => WFb getB t' = true ∧
            nbound getB t' = optUnion (nbound getB t) pb
         | .inr (x, y) => WFb getB x = true ∧ WFb getB y = true ∧
            optUnion (nbound getB x) (nbound getB y) =
              optUnion (nbound getB t) pb) := by
  intro N
  induction N with
  | zero =>
    intro t pn hsz
    exfalso
    cases t <;> simp [RNode.sizeN] at hsz
  | succ N ih =>
    intro t pn hsz hwt hwpn res pb heq
    cases t with
    | leaf v => rw [insGo] at heq; cases heq
    | page b cs =>
      obtain ⟨hb, hcs⟩ := (WFb_page_iff getB b cs).mp hwt
      rw [insGo] at heq
      rcases hh : cs.head? with - | h
      · rw [hh] at heq; cases heq
      rw [hh] at heq
      dsimp only at heq
      by_cases hl : h.isLeaf = true
      · rw [if_pos hl] at heq
        have hmain := insHere_WF getB maxC minC b cs pn res pb hb hcs hwpn heq
        rcases res with t' | ⟨x, y⟩
        · exact ⟨hmain.1, hmain.2⟩
        · exact ⟨hmain.1, hmain.2.1, hmain.2.2⟩
      · rw [if_neg hl] at heq
        rcases hfb : find_best_fit_idx getB (nbound getB pn) cs with - | i
        · rw [hfb] at heq; cases heq
        rw [hfb] at heq
        dsimp only at heq
        by_cases hi : i < cs.length
        · rw [dif_pos hi] at heq
          by_cases hcl : (cs.get ⟨i, hi⟩).isLeaf = true
          · rw [if_pos hcl] at heq
            have hmain := insHere_WF getB maxC minC b cs pn res pb hb hcs hwpn heq
            rcases res with t' | ⟨x, y⟩
            · exact ⟨hmain.1, hmain.2⟩
            · exact ⟨hmain.1, hmain.2.1, hmain.2.2⟩
          · rw [if_neg hcl] at heq
            rcases hrec : insGo getB maxC minC (cs.get ⟨i, hi⟩) pn with - | rp
            · rw [hrec] at heq; cases heq
            obtain ⟨resc, pbc⟩ := rp
            rw [hrec] at heq
            dsimp only at heq
            have hszc : RNode.sizeN (cs.get ⟨i, hi⟩) ≤ N := by
              have hlt : ∀ (b0 : Option (Box n)) (l : List (RNode V n)), ∀ c0 ∈ l,
                  RNode.sizeN c0 < RNode.sizeN (RNode.page b0 l) := by
                intro b0 l
                induction l with
                | nil => intro c0 hc; cases hc
                | cons d ds ihd =>
                  intro c0 hc
                  rcases List.mem_cons.mp hc with hc | hc
                  · subst hc; simp [RNode.sizeN, RNode.sizeNL]; omega
                  · have := ihd c0 hc
                    simp [RNode.sizeN, RNode.sizeNL] at this ⊢
                    omega
              have := hlt b cs _ (List.get_mem cs i hi)
              omega
            have hwc : WFb getB (cs.get ⟨i, hi⟩) = true :=
              hcs _ (List.get_mem cs i hi)
            have hIH := ih (cs.get ⟨i, hi⟩) pn hszc hwc hwpn resc pbc hrec
            -- abbreviations for the split decomposition of cs at i
            have hgetE : cs.get ⟨i, hi⟩ = cs[i] := rfl
            have hsplitU : unionBounds getB cs =
                optUnion (nbound getB cs[i])
                  (unionBounds getB (cs.take i ++ cs.drop (i + 1))) :=
              unionBounds_getElem_split getB cs i hi
            rcases resc with c' | xy
            · -- child replaced in place
              dsimp only at heq
              dsimp only at hIH
              obtain ⟨hwc', hbc'⟩ := hIH
              rw [hgetE] at hbc'
              have hU : optUnion b pbc = unionBounds getB (cs.set i c') := by
                rw [unionBounds_set getB cs i hi c', hbc', optUnion_left_comm,
                  ← hsplitU, ← hb]
              have hcs' : ∀ c ∈ cs.set i c', WFb getB c = true := by
                intro c hc
                rcases List.mem_or_eq_of_mem_set hc with hc | hc
                · exact hcs c hc
                · subst hc; exact hwc'
              obtain ⟨r, hr, hmap⟩ := Option.map_eq_some'.mp heq
              injection hmap with hres hpb
              subst hres
              subst hpb
              have hout := splitCheck_WF getB maxC minC _ _ r hU hcs' hr
              rcases r with t' | ⟨x2, y2⟩
              · exact ⟨hout.1, hout.2⟩
              · exact ⟨hout.1, hout.2.1, hout.2.2⟩
            · -- child replaced by its split pair
              obtain ⟨x, y⟩ := xy
              dsimp only at heq
              dsimp only at hIH
              obtain ⟨hwx, hwy, hbxy⟩ := hIH
              rw [hgetE] at hbxy
              have habsorb : optUnion b (nbound getB cs[i]) = b := by
                rw [hb, hsplitU, optUnion_assoc,
                  optUnion_comm (unionBounds getB (cs.take i ++ cs.drop (i + 1)))
                    (nbound getB cs[i]),
                  optUnion_absorb_left]
              have hkey : optUnion (optUnion (optUnion b (nbound getB x))
                  (nbound getB y)) pbc = optUnion b pbc := by
                calc optUnion (optUnion (optUnion b (nbound getB x)) (nbound getB y)) pbc
                    = optUnion b (optUnion (optUnion (nbound getB x) (nbound getB y)) pbc) := by
                      rw [optUnion_assoc b (nbound getB x) (nbound getB y), optUnion_assoc]
                  _ = optUnion b (optUnion (optUnion (nbound getB cs[i]) pbc) pbc) := by
                      rw [hbxy]
                  _ = optUnion b (optUnion (nbound getB cs[i]) (optUnion pbc pbc)) := by
                      rw [optUnion_assoc]
                  _ = optUnion b (optUnion (nbound getB cs[i]) pbc) := by
                      rw [optUnion_self]
                  _ = optUnion (optUnion b (nbound getB cs[i])) pbc := by
                      rw [optUnion_assoc]
                  _ = optUnion b pbc := by rw [habsorb]
              have hxy : unionBounds getB [x, y] =
                  optUnion (nbound getB x) (nbound getB y) := by
                rw [unionBounds_cons, unionBounds_cons]
                have hnil : unionBounds getB ([] : List (RNode V n)) = none := rfl
                rw [hnil, optUnion_none_right]
              have hU : optUnion (optUnion (optUnion b (nbound getB x)) (nbound getB y))
                  pbc = unionBounds getB (cs.eraseIdx i ++ [x, y]) := by
                rw [hkey, unionBounds_append, unionBounds_eraseIdx getB cs i hi, hxy,
                  hbxy, ← optUnion_assoc,
                  optUnion_comm (unionBounds getB (cs.take i ++ cs.drop (i + 1)))
                    (nbound getB cs[i]),
                  ← hsplitU, ← hb]
              have hcs' : ∀ c ∈ cs.eraseIdx i ++ [x, y], WFb getB c = true := by
                intro c hc
                rcases List.mem_append.mp hc with hc | hc
                · exact hcs c (List.mem_of_mem_eraseIdx hc)
                · rcases List.mem_cons.mp hc with hc | hc
                  · subst hc; exact hwx
                  · simp at hc
                    subst hc
                    exact hwy
              obtain ⟨r, hr, hmap⟩ := Option.map_eq_some'.mp heq
              injection hmap with hres hpb
              subst hres
              subst hpb
              have hout := splitCheck_WF getB maxC minC _ _ r hU hcs' hr
              rcases r with t' | ⟨x2, y2⟩
              · exact ⟨hout.1, hout.2.trans hkey⟩
              · exact ⟨hout.1, hout.2.1, hout.2.2.trans hkey⟩
        · rw [dif_neg hi] at heq
          cases heq

/-- The root assembly of expand_tree preserves well formedness: a fresh
root page over a split pair is restretched by exactly its two children. -/
theorem rootAssemble_WF {V : Type} {n : ℕ} (getB : V → Box n)
    (r : RNode V n ⊕ RNode V n × RNode V n)
    (h : match r with
         | .inl t => WFb getB t = true
         | .inr (x, y) => WFb getB x = true ∧ WFb getB y = true) :
    WFb getB (rootAssemble getB r) = true := by
  rcases r with t | ⟨x, y⟩
  · exact h
  · obtain ⟨hx, hy⟩ := h
    show WFb getB (.page (optUnion (optUnion none (nbound getB x)) (nbound getB y))
      [x, y]) = true
    apply (WFb_page_iff getB _ _).mpr
    constructor
    · rw [unionBounds_cons, unionBounds_cons]
      have hnil : unionBounds getB ([] : List (RNode V n)) = none := rfl
      rw [hnil, optUnion_none_right]
      rfl
    · intro c hc
      rcases List.mem_cons.mp hc with hc | hc
      · subst hc; exact hx
      · simp at hc
        subst hc
        exact hy

/-- Algorithm::insert preserves the bound invariant on every success. -/
theorem insertNode_WF {V : Type} {n : ℕ} (getB : V → Box n) (maxC minC : ℕ)
    (root : Option (RNode V n)) (pn : RNode V n)
    (hroot : ∀ t0, root = some t0 → WFb getB t0 = true)
    (hpn : WFb getB pn = true) :
    ∀ t2, insertNode getB maxC minC root pn = some t2 → WFb getB t2 = true := by
  intro t2 h
  cases root with
  | none =>
    rw [insertNode] at h
    obtain ⟨r, hr, hmap⟩ := Option.map_eq_some'.mp h
    subst hmap
    have hb0 : optUnion none (nbound getB pn) = unionBounds getB [pn] := by
      rw [unionBounds_cons]
      have hnil : unionBounds getB ([] : List (RNode V n)) = none := rfl
      rw [hnil, optUnion_none_right]
      rfl
    have hcs0 : ∀ c ∈ [pn], WFb getB c = true := by
      intro c hc
      simp at hc
      subst hc
      exact hpn
    have hout := splitCheck_WF getB maxC minC _ _ r hb0 hcs0 hr
    apply rootAssemble_WF getB r
    rcases r with t | ⟨x, y⟩
    · exact hout.1
    · exact ⟨hout.1, hout.2.1⟩
  | some t =>
    rw [insertNode] at h
    obtain ⟨rp, hrp, hmap⟩ := Option.map_eq_some'.mp h
    subst hmap
    obtain ⟨res, pb⟩ := rp
    have hwt : WFb getB t = true := hroot t rfl
    have hout := insGo_WF getB maxC minC (RNode.sizeN t) t pn le_rfl hwt hpn res pb hrp
    apply rootAssemble_WF getB res
    rcases res with t0 | ⟨x, y⟩
    · exact hout.1
    · exact ⟨hout.1, hout.2.1⟩

/-- A well formed node has only well formed children. -/
theorem children_WF {V : Type} {n : ℕ} (getB : V → Box n) (t : RNode V n)
    (h : WFb getB t = true) : ∀ c ∈ t.children, WFb getB c = true := by
  cases t with
  | leaf v => intro c hc; cases hc
  | page b cs =>
    intro c hc
    exact ((WFb_page_iff getB b cs).mp h).2 c hc

/-- The match removal page is well formed on every success. -/
theorem removeMatches_WF {V : Type} {n : ℕ} [DecidableEq V] (getB : V → Box n)
    (cs : List (RNode V n)) (rb : Box n) (rv : V)
    (hcs : ∀ c ∈ cs, WFb getB c = true) :
    ∀ t2, removeMatches getB cs rb rv = some t2 → WFb getB t2 = true := by
  intro t2 h
  rw [removeMatches] at h
  by_cases hall : cs.all (fun c => c.isLeaf) = true
  · rw [if_pos hall] at h
    injection h with h
    subst h
    apply (WFb_page_iff getB _ _).mpr
    exact ⟨rfl, fun c hc => hcs c (List.mem_of_mem_filter hc)⟩
  · rw [if_neg hall] at h
    cases h

/-- The condense descent of remove: the replacement node is well formed
(every ancestor restretched) and every orphan collected on the way up is
well formed. -/
theorem removeGo_WF {V : Type} {n : ℕ} [DecidableEq V] (getB : V → Box n)
    (minC : ℕ) (rb : Box n) (rv : V) :
    ∀ (N : ℕ) (t : RNode V n),
      RNode.sizeN t ≤ N → WFb getB t = true →
      ∀ t2 orph, removeGo getB minC t rb rv = some (t2, orph) →
        WFb getB t2 = true ∧ ∀ o ∈ orph, WFb getB o = true := by
  intro N
  induction N with
  | zero =>
    intro t hsz
    exfalso
    cases t <;> simp [RNode.sizeN] at hsz
  | succ N ih =>
    intro t hsz hwt t2 orph heq
    cases t with
    | leaf v => rw [removeGo] at heq; cases heq
    | page b cs =>
      obtain ⟨hb, hcs⟩ := (WFb_page_iff getB b cs).mp hwt
      rw [removeGo] at heq
      rcases hh : cs.head? with - | h
      · rw [hh] at heq; cases heq
      rw [hh] at heq
      dsimp only at heq
      by_cases hl : h.isLeaf = true
      · rw [if_pos hl] at heq
        obtain ⟨t0, ht0, hmap⟩ := Option.map_eq_some'.mp heq
        injection hmap with h1 h2
        subst h1
        subst h2
        refine ⟨removeMatches_WF getB cs rb rv hcs t0 ht0, ?_⟩
        intro o ho
        cases ho
      · rw [if_neg hl] at heq
        rcases hfb : find_best_fit_idx getB (some rb) cs with - | i
        · rw [hfb] at heq; cases heq
        rw [hfb] at heq
        dsimp only at heq
        by_cases hi : i < cs.length
        · rw [dif_pos hi] at heq
          by_cases hcl : (cs.get ⟨i, hi⟩).isLeaf = true
          · rw [if_pos hcl] at heq
            obtain ⟨t0, ht0, hmap⟩ := Option.map_eq_some'.mp heq
            injection hmap with h1 h2
            subst h1
            subst h2
            refine ⟨removeMatches_WF getB cs rb rv hcs t0 ht0, ?_⟩
            intro o ho
            cases ho
          · rw [if_neg hcl] at heq
            rcases hrec : removeGo getB minC (cs.get ⟨i, hi⟩) rb rv with - | rp
            · rw [hrec] at heq; cases heq
            obtain ⟨c', orph0⟩ := rp
            rw [hrec] at heq
            dsimp only at heq
            have hszc : RNode.sizeN (cs.get ⟨i, hi⟩) ≤ N := by
              have hlt : ∀ (b0 : Option (Box n)) (l : List (RNode V n)), ∀ c0 ∈ l,
                  RNode.sizeN c0 < RNode.sizeN (RNode.page b0 l) := by
                intro b0 l
                induction l with
                | nil => intro c0 hc; cases hc
                | cons d ds ihd =>
                  intro c0 hc
                  rcases List.mem_cons.mp hc with hc | hc
                  · subst hc; simp [RNode.sizeN, RNode.sizeNL]; omega
                  · have := ihd c0 hc
                    simp [RNode.sizeN, RNode.sizeNL] at this ⊢
                    omega
              have := hlt b cs _ (List.get_mem cs i hi)
              omega
            have hwc : WFb getB (cs.get ⟨i, hi⟩) = true :=
              hcs _ (List.get_mem cs i hi)
            obtain ⟨hwc', horph0⟩ := ih (cs.get ⟨i, hi⟩) hszc hwc c' orph0 hrec
            by_cases hdis : c'.childCount < minC
            · rw [if_pos hdis] at heq
              injection heq with h0
              injection h0 with h1 h2
              subst h1
              subst h2
              constructor
              · apply (WFb_page_iff getB _ _).mpr
                exact ⟨rfl, fun c hc => hcs c (List.mem_of_mem_eraseIdx hc)⟩
              · intro o ho
                rcases List.mem_append.mp ho with ho | ho
                · exact horph0 o ho
                · exact children_WF getB c' hwc' o ho
            · rw [if_neg hdis] at heq
              injection heq with h0
              injection h0 with h1 h2
              subst h1
              subst h2
              constructor
              · apply (WFb_page_iff getB _ _).mpr
                refine ⟨rfl, ?_⟩
                intro c hc
                rcases List.mem_or_eq_of_mem_set hc with hc | hc
                · exact hcs c hc
                · subst hc; exact hwc'
              · exact horph0
        · rw [dif_neg hi] at heq
          cases heq

/-- Re-inserting the orphan list through the full insertion algorithm keeps
the accumulating root well formed. -/
theorem foldlM_insertNode_WF {V : Type} {n : ℕ} (getB : V → Box n)
    (maxC minC : ℕ) :
    ∀ (orphans : List (RNode V n)) (acc : RNode V n),
      WFb getB acc = true → (∀ o ∈ orphans, WFb getB o = true) →
      ∀ t2, orphans.foldlM
          (fun a o => insertNode getB maxC minC (some a) o) acc = some t2 →
        WFb getB t2 = true := by
  intro orphans
  induction orphans with
  | nil =>
    intro acc hacc horph t2 h
    simp only [List.foldlM_nil] at h
    injection h with h
    subst h
    exact hacc
  | cons o os ih =>
    intro acc hacc horph t2 h
    simp only [List.foldlM_cons] at h
    rcases h1 : insertNode getB maxC minC (some acc) o with - | acc2
    · rw [h1] at h; cases h
    rw [h1] at h
    have h2 : os.foldlM (fun a o => insertNode getB maxC minC (some a) o) acc2 =
        some t2 := h
    have hacc2 : WFb getB acc2 = true :=
      insertNode_WF getB maxC minC (some acc) o
        (fun t0 ht0 => by injection ht0 with ht0; subst ht0; exact hacc)
        (horph o (List.mem_cons_self o os)) acc2 h1
    exact ih acc2 hacc2 (fun x hx => horph x (List.mem_cons_of_mem o hx)) t2 h2

/-- Algorithm::remove at the root preserves the bound invariant on every
success (descend, condense, re-insert orphans, collapse a single page
child). -/
theorem removeNode_WF {V : Type} {n : ℕ} [DecidableEq V] (getB : V → Box n)
    (maxC minC : ℕ) (root : Option (RNode V n)) (rb : Box n) (rv : V)
    (hroot : ∀ t0, root = some t0 → WFb getB t0 = true) :
    ∀ t2, removeNode getB maxC minC root rb rv = some t2 →
      WFb getB t2 = true := by
  intro t2 h
  cases root with
  | none =>
    rw [removeNode] at h
    injection h with h
    subst h
    apply (WFb_page_iff getB _ _).mpr
    exact ⟨rfl, fun c hc => absurd hc (List.not_mem_nil c)⟩
  | some t =>
    rw [removeNode] at h
    rcases hrg : removeGo getB minC t rb rv with - | rp
    · rw [hrg] at h; cases h
    obtain ⟨t1, orphans⟩ := rp
    rw [hrg] at h
    dsimp only at h
    obtain ⟨hwt1, horph⟩ := removeGo_WF getB minC rb rv (RNode.sizeN t) t le_rfl
      (hroot t rfl) t1 orphans hrg
    rcases hfm : orphans.foldlM
        (fun acc o => insertNode getB maxC minC (some acc) o) t1 with - | t3
    · rw [hfm] at h; cases h
    rw [hfm] at h
    dsimp only at h
    have hwt3 : WFb getB t3 = true :=
      foldlM_insertNode_WF getB maxC minC orphans t1 hwt1 horph t3 hfm
    by_cases hone : t3.childCount = 1
    · rw [if_pos hone] at h
      rcases hhd : t3.children.head? with - | c
      · rw [hhd] at h
        dsimp only at h
        injection h with h
        subst h
        exact hwt3
      · rw [hhd] at h
        dsimp only at h
        by_cases hcl : c.isLeaf = true
        · rw [if_pos hcl] at h
          injection h with h
          subst h
          exact hwt3
        · rw [if_neg hcl] at h
          injection h with h
          subst h
          exact children_WF getB t3 hwt3 c (List.mem_of_mem_head? hhd)
    · rw [if_neg hone] at h
      injection h with h
      subst h
      exact hwt3

/-- C4: after every R-tree mutation (every successful insert of a value and
every successful remove of a value) starting from a well formed tree, every
page bound equals the union of the bounds of its current children (the
invariant WFb). -/
theorem claim_C4 {V : Type} {n : ℕ} [DecidableEq V] (getB : V → Box n)
    (maxC minC : ℕ) (root : Option (RNode V n))
    (hroot : ∀ t0, root = some t0 → WFb getB t0 = true) :
    (∀ v t2, insertVal getB maxC minC root v = some t2 → WFb getB t2 = true) ∧
    (∀ v t2, removeVal getB maxC minC root v = some t2 → WFb getB t2 = true) := by
  constructor
  · intro v t2 h
    exact insertNode_WF getB maxC minC root (.leaf v) hroot rfl t2 h
  · intro v t2 h
    exact removeNode_WF getB maxC minC root (getB v) v hroot t2 h

/-! ### Claim C5: length of the RCB partition vector -/

theorem setInsert_length_le {n : ℕ} :
    ∀ (fs : List (Box n)) (x : Box n), (setInsert fs x).length ≤ fs.length + 1 := by
  intro fs
  induction fs with
  | nil => intro x; simp [setInsert]
  | cons y ys ih =>
    intro x
    rw [setInsert]
    by_cases h1 : Box.less x y = true
    · rw [if_pos h1]; simp
    · rw [if_neg h1]
      by_cases h2 : Box.less y x = true
      · rw [if_pos h2]
        simp only [List.length_cons]
        have := ih x
        omega
      · rw [if_neg h2]
        simp

/-- One split round sends each side of each pending box either to the final
set (at most one new member, the std set may identify it with an existing
equivalent box) or back to the work list with its rank count; the final
count plus the pending rank weight never grows. -/
theorem roundAssign_count {n : ℕ} [NeZero n] :
    ∀ (items : List ((Box n × ℕ) × ℚ × ℚ)) (fs : List (Box n)),
      (roundAssign items fs).2.length +
          ((roundAssign items fs).1.map (fun p => p.2)).sum ≤
        fs.length + (items.map (fun it => it.1.2)).sum := by
  intro items
  induction items with
  | nil => intro fs; simp [roundAssign]
  | cons it rest ih =>
    intro fs
    rw [roundAssign]
    dsimp only
    by_cases h1 : it.1.2 / 2 = 1
    · rw [if_pos h1]
      by_cases h2 : it.1.2 - it.1.2 / 2 = 1
      · rw [if_pos h2]
        simp only [List.nil_append, List.map_cons, List.sum_cons]
        have hih := ih (setInsert
          (setInsert fs ⟨(it.1.1).min,
            Function.update (it.1.1).max (it.1.1).longest_dimension (it.2.1 / it.2.2)⟩)
          ⟨Function.update (it.1.1).min (it.1.1).longest_dimension (it.2.1 / it.2.2),
            (it.1.1).max⟩)
        have hs1 := setInsert_length_le fs ⟨(it.1.1).min,
          Function.update (it.1.1).max (it.1.1).longest_dimension (it.2.1 / it.2.2)⟩
        have hs2 := setInsert_length_le (setInsert fs ⟨(it.1.1).min,
            Function.update (it.1.1).max (it.1.1).longest_dimension (it.2.1 / it.2.2)⟩)
          ⟨Function.update (it.1.1).min (it.1.1).longest_dimension (it.2.1 / it.2.2),
            (it.1.1).max⟩
        omega
      · rw [if_neg h2]
        simp only [List.nil_append, List.map_cons, List.sum_cons, List.map_append,
          List.sum_append, List.map_nil, List.sum_nil]
        have hih := ih (setInsert fs ⟨(it.1.1).min,
          Function.update (it.1.1).max (it.1.1).longest_dimension (it.2.1 / it.2.2)⟩)
        have hs1 := setInsert_length_le fs ⟨(it.1.1).min,
          Function.update (it.1.1).max (it.1.1).longest_dimension (it.2.1 / it.2.2)⟩
        omega
    · rw [if_neg h1]
      by_cases h2 : it.1.2 - it.1.2 / 2 = 1
      · rw [if_pos h2]
        simp only [List.map_cons, List.sum_cons, List.map_append, List.sum_append,
          List.map_nil, List.sum_nil, List.nil_append, List.singleton_append]
        have hih := ih (setInsert fs ⟨Function.update (it.1.1).min
          (it.1.1).longest_dimension (it.2.1 / it.2.2), (it.1.1).max⟩)
        have hs1 := setInsert_length_le fs ⟨Function.update (it.1.1).min
          (it.1.1).longest_dimension (it.2.1 / it.2.2), (it.1.1).max⟩
        omega
      · rw [if_neg h2]
        simp only [List.map_cons, List.sum_cons, List.map_append, List.sum_append,
          List.map_nil, List.sum_nil, List.singleton_append]
        have hih := ih fs
        omega

/-- The bisection loop: on success the final list has at most as many boxes
as the total pending rank count plus the already final boxes. -/
theorem rcbLoop_length {n : ℕ} [NeZero n] (ranksW : List (List (Point n × ℚ))) :
    ∀ (fuel : ℕ) (pending : List (Box n × ℕ)) (fs : List (Box n)) (v : List (Box n)),
      rcbLoop ranksW fuel pending fs = some v →
      v.length ≤ fs.length + ((pending.map (fun p => p.2)).sum) := by
  intro fuel
  induction fuel with
  | zero =>
    intro pending fs v h
    cases pending with
    | nil =>
      rw [rcbLoop.eq_def] at h
      dsimp only at h
      injection h with h
      subst h
      simp
    | cons p ps =>
      rw [rcbLoop.eq_def] at h
      dsimp only at h
      cases h
  | succ N ih =>
    intro pending fs v h
    cases pending with
    | nil =>
      rw [rcbLoop.eq_def] at h
      dsimp only at h
      injection h with h
      subst h
      simp
    | cons p ps =>
      rw [rcbLoop.eq_def] at h
      dsimp only at h
      rcases hll : ranksLocalLists ranksW (p :: ps) with - | lists
      · rw [hll] at h; cases h
      rw [hll] at h
      dsimp only at h
      rcases har : allReduceSplits lists with - | glob
      · rw [har] at h; cases h
      rw [har] at h
      dsimp only at h
      by_cases hlen : glob.length = (p :: ps).length
      · rw [if_pos hlen] at h
        have hv := ih _ _ v h
        have hra := roundAssign_count ((p :: ps).zip glob) fs
        have hmap : ((p :: ps).zip glob).map (fun it => it.1.2) =
            (p :: ps).map (fun q => q.2) := by
          have hfst : ((p :: ps).zip glob).map Prod.fst = p :: ps :=
            List.map_fst_zip _ _ (le_of_eq hlen.symm)
          calc ((p :: ps).zip glob).map (fun it => it.1.2)
              = (((p :: ps).zip glob).map Prod.fst).map (fun q => q.2) := by
                rw [List.map_map]
                rfl
            _ = (p :: ps).map (fun q => q.2) := by rw [hfst]
        rw [hmap] at hra
        omega
      · rw [if_neg hlen] at h
        cases h

/-- C5, amended: on every successful run the partition vector of RCB::init
has length at most the number of ranks (the std set of final boxes under the
Box less comparator identifies equivalent boxes — equal min corners — so the
length can be strictly below the rank count, see the counterexample). -/
theorem claim_C5 {n : ℕ} [NeZero n] (down up : ℚ → ℚ)
    (ranksIn : List (List (Point n) × Option (List ℚ))) (v : List (Box n))
    (h : rcbInit down up ranksIn = some v) :
    v.length ≤ ranksIn.length := by
  rw [rcbInit.eq_def] at h
  cases ranksIn with
  | nil => cases h
  | cons r0 rrest =>
    dsimp only at h
    rcases hrb : rankBound r0.1 with - | b0
    · rw [hrb] at h; cases h
    rw [hrb] at h
    dsimp only at h
    rcases hg : (rrest.map (fun r => rankBound r.1)).foldl
        (fun acc ob => match acc, ob with
          | some a, some b => some (a.stretch b)
          | _, _ => none) (some b0) with - | g
    · rw [hg] at h; cases h
    rw [hg] at h
    dsimp only at h
    by_cases hR : (r0 :: rrest).length = 1
    · rw [if_pos hR] at h
      injection h with h
      subst h
      simp [hR]
    · rw [if_neg hR] at h
      have := rcbLoop_length ((r0 :: rrest).map (fun r => rankWeighted r.1 r.2))
        (r0 :: rrest).length
        [(⟨fun i => down (g.min i), fun i => up (g.max i)⟩, (r0 :: rrest).length)]
        [] v h
      simpa using this

theorem update_fin_one (f : Fin 1 → ℚ) (j : Fin 1) (w : ℚ) :
    Function.update f j w = fun _ => w := by
  funext i
  rw [Subsingleton.elim i j]
  simp

/-- Counterexample to C5 as stated: three ranks, each holding the points
0, 0 and 9 with unit weights, with strictly outward seal nudges (as
next_larger via nexttoward produces: the sealed domain is [-1, 10], every
data value strictly inside).  Round one puts the weighted median on the
point 0 (partial sums 1, 2, 3; the first sum above ratio 1/3 of total 3 is
the second zero), splitting into the final box [-1, 0] and the pending box
[0, 10] for two ranks.  The lower face of that second round box is the
split coordinate 0 — itself a data point, and ContainedByNonInclusive is
inclusive on the min side — so the round two median lands on 0 again: the
low half [0, 0] is degenerate and final, and the high half [0, 10] is final
with the same min corner 0.  Box::less compares only min corners, the set
finds the two equivalent and drops the second, and the run returns 2
partition boxes for 3 ranks. -/
theorem claim_C5_counterexample :
    (∀ x : ℚ, x - 1 < x) ∧ (∀ x : ℚ, x < x + 1) ∧
    ∃ v, rcbInit (n := 1) (fun x => x - 1) (fun x => x + 1)
        ([([fun _ => (0:ℚ), fun _ => (0:ℚ), fun _ => (9:ℚ)], none),
          ([fun _ => (0:ℚ), fun _ => (0:ℚ), fun _ => (9:ℚ)], none),
          ([fun _ => (0:ℚ), fun _ => (0:ℚ), fun _ => (9:ℚ)], none)] :
          List (List (Point 1) × Option (List ℚ))) = some v ∧
      v.length = 2 ∧
      ([([fun _ => (0:ℚ), fun _ => (0:ℚ), fun _ => (9:ℚ)], none),
        ([fun _ => (0:ℚ), fun _ => (0:ℚ), fun _ => (9:ℚ)], none),
        ([fun _ => (0:ℚ), fun _ => (0:ℚ), fun _ => (9:ℚ)], none)] :
        List (List (Point 1) × Option (List ℚ))).length = 3 := by
  refine ⟨fun x => by norm_num, fun x => by norm_num,
    [⟨fun _ => -1, fun _ => 0⟩, ⟨fun _ => 0, fun _ => 0⟩], ?_, rfl, rfl⟩
  norm_num [rcbInit, rankBound, optUnion, ptBox, Box.stretch, rankWeighted, rcbLoop,
    ranksLocalLists, localSplitList, localSplit, ContainsNonInclusive, sortByCenter,
    sortIns, Box.center, partialSums, allReduceSplits, allReduceGo, rcbCombine,
    roundAssign, setInsert, Box.less, List.filter_cons, List.findIdx_cons,
    Fin.forall_fin_one, Fin.exists_fin_one, Bool.cond_decide, update_fin_one,
    eq_iff_true_of_subsingleton]

/-- Witness for C5 at one rank: the single rank shortcut returns exactly the
sealed global box, one partition for one rank. -/
theorem claim_C5_witness :
    ∃ v, rcbInit (n := 1) (fun x => x - 1) (fun x => x + 1)
        [([fun _ => (1 : ℚ)], none)] = some v ∧ v.length ≤ 1 := by
  have h : rcbInit (n := 1) (fun x => x - 1) (fun x => x + 1)
      [([fun _ => (1 : ℚ)], none)] =
      some [⟨fun _ => (1 : ℚ) - 1, fun _ => (1 : ℚ) + 1⟩] := rfl
  exact ⟨_, h, claim_C5 (fun x => x - 1) (fun x => x + 1) _ _ h⟩

/-- Witness for C4: inserting one box into the empty tree succeeds and the
resulting root page satisfies the bound invariant. -/
theorem claim_C4_witness :
    insertVal (fun b => b) 10 4 (none : Option (RNode (Box 1) 1))
        (⟨fun _ => 0, fun _ => 1⟩ : Box 1) =
      some (.page (some ⟨fun _ => 0, fun _ => 1⟩)
        [.leaf (⟨fun _ => 0, fun _ => 1⟩ : Box 1)]) ∧
    WFb (fun b => b) (RNode.page (some (⟨fun _ => 0, fun _ => 1⟩ : Box 1))
      [.leaf (⟨fun _ => 0, fun _ => 1⟩ : Box 1)]) = true := by
  constructor
  · rfl
  · exact (claim_C4 (fun b => b) 10 4 none (fun t0 ht0 => by cases ht0)).1
      ⟨fun _ => 0, fun _ => 1⟩ _ rfl

/-! ### Claim C1: distance query lemmas -/

theorem msetInsert_perm {α : Type} (x : ℚ × α) :
    ∀ l : List (ℚ × α), msetInsert x l ~ x :: l := by
  intro l
  induction l with
  | nil => exact List.Perm.refl _
  | cons y ys ih =>
    rw [msetInsert]
    by_cases h : y.1 ≤ x.1
    · rw [if_pos h]
      exact (ih.cons y).trans (List.Perm.swap x y ys)
    · rw [if_neg h]

theorem msetInsert_sorted {α : Type} (x : ℚ × α) :
    ∀ l : List (ℚ × α), List.Pairwise (fun a b => a.1 ≤ b.1) l →
      List.Pairwise (fun a b => a.1 ≤ b.1) (msetInsert x l) := by
  intro l
  induction l with
  | nil => intro _; simp [msetInsert]
  | cons y ys ih =>
    intro hs
    rw [List.pairwise_cons] at hs
    rw [msetInsert]
    by_cases h : y.1 ≤ x.1
    · rw [if_pos h]
      rw [List.pairwise_cons]
      constructor
      · intro z hz
        have hz2 : z ∈ x :: ys := (msetInsert_perm x ys).mem_iff.mp hz
        rcases List.mem_cons.mp hz2 with hz3 | hz3
        · rw [hz3]; exact h
        · exact hs.1 z hz3
      · exact ih hs.2
    · rw [if_neg h]
      rw [List.pairwise_cons]
      constructor
      · intro z hz
        rcases List.mem_cons.mp hz with hz | hz
        · rw [hz]; exact le_of_lt (not_le.mp h)
        · exact le_trans (le_of_lt (not_le.mp h)) (hs.1 z hz)
      · exact List.pairwise_cons.mpr hs

theorem foldl_msetInsert_perm {α β : Type} (f : β → ℚ × α) :
    ∀ (cs : List β) (rest : List (ℚ × α)),
      cs.foldl (fun acc c => msetInsert (f c) acc) rest ~ cs.map f ++ rest := by
  intro cs
  induction cs with
  | nil => intro rest; exact List.Perm.refl _
  | cons c cs ih =>
    intro rest
    simp only [List.foldl_cons, List.map_cons, List.cons_append]
    calc cs.foldl (fun acc c => msetInsert (f c) acc) (msetInsert (f c) rest)
        ~ cs.map f ++ msetInsert (f c) rest := ih _
      _ ~ cs.map f ++ (f c :: rest) := (msetInsert_perm (f c) rest).append_left _
      _ ~ f c :: (cs.map f ++ rest) := List.perm_middle

theorem foldl_msetInsert_sorted {α β : Type} (f : β → ℚ × α) :
    ∀ (cs : List β) (rest : List (ℚ × α)),
      List.Pairwise (fun a b => a.1 ≤ b.1) rest →
      List.Pairwise (fun a b => a.1 ≤ b.1)
        (cs.foldl (fun acc c => msetInsert (f c) acc) rest) := by
  intro cs
  induction cs with
  | nil => intro rest h; exact h
  | cons c cs ih =>
    intro rest h
    simp only [List.foldl_cons]
    exact ih _ (msetInsert_sorted (f c) rest h)

theorem perm_flatMap {α β : Type} (f : α → List β) {l1 l2 : List α} (h : l1 ~ l2) :
    l1.flatMap f ~ l2.flatMap f := by
  induction h with
  | nil => exact List.Perm.refl _
  | cons x _ ih =>
    simp only [List.flatMap_cons]
    exact ih.append_left (f x)
  | swap x y l =>
    simp only [List.flatMap_cons]
    calc f y ++ (f x ++ l.flatMap f)
        = (f y ++ f x) ++ l.flatMap f := (List.append_assoc _ _ _).symm
      _ ~ (f x ++ f y) ++ l.flatMap f := (List.perm_append_comm).append_right _
      _ = f x ++ (f y ++ l.flatMap f) := List.append_assoc _ _ _
  | trans _ _ ih1 ih2 => exact ih1.trans ih2

/-- In a key sorted pair list every key is at most the last key. -/
theorem sorted_key_le_getLast {α : Type} :
    ∀ (l : List (ℚ × α)) (p : ℚ × α), List.Pairwise (fun a b => a.1 ≤ b.1) l →
      l.getLast? = some p → ∀ q ∈ l, q.1 ≤ p.1 := by
  intro l
  induction l with
  | nil => intro p _ hl; cases hl
  | cons a l ih =>
    intro p hs hl q hq
    cases l with
    | nil =>
      simp at hl
      subst hl
      simp at hq
      subst hq
      exact le_rfl
    | cons b l2 =>
      rw [List.getLast?_cons_cons] at hl
      rw [List.pairwise_cons] at hs
      rcases List.mem_cons.mp hq with hq | hq
      · subst hq
        have hpmem : p ∈ b :: l2 := by
          have : ∀ (m : List (ℚ × α)) (x : ℚ × α), m.getLast? = some x → x ∈ m := by
            intro m
            induction m with
            | nil => intro x hx; cases hx
            | cons c m ihm =>
              intro x hx
              cases m with
              | nil => simp at hx; subst hx; exact List.mem_cons_self _ _
              | cons e m2 =>
                rw [List.getLast?_cons_cons] at hx
                exact List.mem_cons_of_mem c (ihm x hx)
          exact this _ p hl
        exact hs.1 p hpmem
      · exact ih p hs.2 hl q hq

/-- Containment is reflexive and transitive, and a stretched box contains
both operands. -/
theorem Contains_trans {n : ℕ} {A B C : Box n} (h1 : Contains A B)
    (h2 : Contains B C) : Contains A C :=
  ⟨fun i => le_trans (h1.1 i) (h2.1 i), fun i => le_trans (h2.2 i) (h1.2 i)⟩

theorem contains_stretch_left {n : ℕ} (a b : Box n) : Contains (a.stretch b) a :=
  ⟨fun i => min_le_left _ _, fun i => le_max_left _ _⟩

theorem contains_stretch_right {n : ℕ} (a b : Box n) : Contains (a.stretch b) b :=
  ⟨fun i => min_le_right _ _, fun i => le_max_right _ _⟩

/-- The Nearest metric is antitone in the node box under containment. -/
theorem Nearest_le_of_contains {n : ℕ} (A B tb : Box n) (h : Contains A B) :
    Nearest A tb ≤ Nearest B tb := by
  apply Finset.sum_le_sum
  intro i _
  apply pow_le_pow_left₀
  · exact le_max_of_le_left (le_max_left _ _)
  · apply max_le_max
    · exact max_le_max le_rfl (by
        have := h.2 i
        exact sub_le_sub_left this _)
    · exact max_le_max le_rfl (sub_le_sub_right (h.1 i) _)

/-- The union bound of a child list contains every present child bound. -/
theorem unionBounds_contains {V : Type} {n : ℕ} (getB : V → Box n) :
    ∀ (cs : List (RNode V n)) (c : RNode V n), c ∈ cs →
      ∀ bc, nbound getB c = some bc →
      ∃ bb, unionBounds getB cs = some bb ∧ Contains bb bc := by
  intro cs
  induction cs with
  | nil => intro c hc; cases hc
  | cons d cs ih =>
    intro c hc bc hbc
    rw [unionBounds_cons]
    rcases List.mem_cons.mp hc with hc | hc
    · subst hc
      rw [hbc]
      rcases hrest : unionBounds getB cs with - | br
      · exact ⟨bc, rfl, ⟨fun i => le_rfl, fun i => le_rfl⟩⟩
      · exact ⟨bc.stretch br, rfl, contains_stretch_left bc br⟩
    · obtain ⟨bb, hbb, hcont⟩ := ih c hc bc hbc
      rw [hbb]
      rcases hd : nbound getB d with - | bd
      · exact ⟨bb, rfl, hcont⟩
      · exact ⟨bd.stretch bb, rfl,
          Contains_trans (contains_stretch_right bd bb) hcont⟩

theorem unionBounds_eq_none {V : Type} {n : ℕ} (getB : V → Box n) :
    ∀ cs : List (RNode V n), unionBounds getB cs = none →
      ∀ c ∈ cs, nbound getB c = none := by
  intro cs
  induction cs with
  | nil => intro _ c hc; cases hc
  | cons d cs ih =>
    intro hu c hc
    rw [unionBounds_cons] at hu
    have hparts : nbound getB d = none ∧ unionBounds getB cs = none := by
      rcases h1 : nbound getB d with - | b1 <;> rcases h2 : unionBounds getB cs with - | b2 <;>
        rw [h1, h2] at hu <;> simp [optUnion] at hu <;> exact ⟨rfl, rfl⟩
    rcases List.mem_cons.mp hc with hc | hc
    · subst hc; exact hparts.1
    · exact ih hparts.2 c hc

theorem leavesL_eq_nil {V : Type} {n : ℕ} :
    ∀ cs : List (RNode V n), (∀ c ∈ cs, RNode.leaves c = []) →
      RNode.leavesL cs = [] := by
  intro cs
  induction cs with
  | nil => intro _; rfl
  | cons c cs ih =>
    intro h
    rw [RNode.leavesL]
    rw [h c (List.mem_cons_self c cs), ih (fun d hd => h d (List.mem_cons_of_mem c hd))]
    rfl

theorem sizeN_lt_of_mem {V : Type} {n : ℕ} (b0 : Option (Box n))
    (l : List (RNode V n)) : ∀ c0 ∈ l,
    RNode.sizeN c0 < RNode.sizeN (RNode.page b0 l) := by
  induction l with
  | nil => intro c0 hc; cases hc
  | cons d ds ih =>
    intro c0 hc
    rcases List.mem_cons.mp hc with hc | hc
    · subst hc; simp [RNode.sizeN, RNode.sizeNL]; omega
    · have := ih c0 hc
      simp [RNode.sizeN, RNode.sizeNL] at this ⊢
      omega

/-- A well formed node with a reset bound stores no values. -/
theorem leaves_eq_nil_of_nbound_none {V : Type} {n : ℕ} (getB : V → Box n) :
    ∀ (N : ℕ) (t : RNode V n), RNode.sizeN t ≤ N → WFb getB t = true →
      nbound getB t = none → RNode.leaves t = [] := by
  intro N
  induction N with
  | zero =>
    intro t hsz
    exfalso
    cases t <;> simp [RNode.sizeN] at hsz
  | succ N ih =>
    intro t hsz hw hnone
    cases t with
    | leaf v => cases hone : hnone
    | page b cs =>
      obtain ⟨hb, hcs⟩ := (WFb_page_iff getB b cs).mp hw
      have hbnone : unionBounds getB cs = none := by
        rw [← hb]
        exact hnone
      rw [RNode.leaves]
      apply leavesL_eq_nil
      intro c hc
      apply ih c _ (hcs c hc) (unionBounds_eq_none getB cs hbnone c hc)
      have := sizeN_lt_of_mem b cs c hc
      omega

theorem mem_leavesL {V : Type} {n : ℕ} (v : V) :
    ∀ cs : List (RNode V n), v ∈ RNode.leavesL cs ↔ ∃ c ∈ cs, v ∈ RNode.leaves c := by
  intro cs
  induction cs with
  | nil =>
    rw [RNode.leavesL]
    simp
  | cons c cs ih =>
    rw [RNode.leavesL]
    rw [List.mem_append, ih]
    constructor
    · rintro (h | ⟨d, hd, hv⟩)
      · exact ⟨c, List.mem_cons_self c cs, h⟩
      · exact ⟨d, List.mem_cons_of_mem c hd, hv⟩
    · rintro ⟨d, hd, hv⟩
      rcases List.mem_cons.mp hd with hd | hd
      · subst hd; exact Or.inl hv
      · exact Or.inr ⟨d, hd, hv⟩

/-- The best first key of a node underestimates the distance of every value
stored below it. -/
theorem ndist_le_leaf {V : Type} {n : ℕ} (getB : V → Box n) (tb : Box n) :
    ∀ (N : ℕ) (t : RNode V n), RNode.sizeN t ≤ N → WFb getB t = true →
      ∀ v ∈ RNode.leaves t, ndist getB tb t ≤ Nearest (getB v) tb := by
  intro N
  induction N with
  | zero =>
    intro t hsz
    exfalso
    cases t <;> simp [RNode.sizeN] at hsz
  | succ N ih =>
    intro t hsz hw v hv
    cases t with
    | leaf w =>
      rw [RNode.leaves] at hv
      simp at hv
      subst hv
      rw [ndist]
      exact le_rfl
    | page b cs =>
      obtain ⟨hb, hcs⟩ := (WFb_page_iff getB b cs).mp hw
      rw [RNode.leaves] at hv
      obtain ⟨c, hc, hvc⟩ := (mem_leavesL v cs).mp hv
      have hszc : RNode.sizeN c ≤ N := by
        have := sizeN_lt_of_mem b cs c hc
        omega
      rcases hnb : nbound getB c with - | bc
      · exfalso
        have := leaves_eq_nil_of_nbound_none getB N c hszc (hcs c hc) hnb
        rw [this] at hvc
        cases hvc
      · obtain ⟨bb, hbb, hcont⟩ := unionBounds_contains getB cs c hc bc hnb
        have h1 : ndist getB tb (RNode.page b cs) = Nearest bb tb := by
          rw [ndist]
          have : nbound getB (RNode.page b cs) = some bb := by
            rw [← hbb, ← hb]
            rfl
          rw [this]
        have h2 : ndist getB tb c = Nearest bc tb := by
          rw [ndist, hnb]
        calc ndist getB tb (RNode.page b cs) = Nearest bb tb := h1
          _ ≤ Nearest bc tb := Nearest_le_of_contains bb bc tb hcont
          _ = ndist getB tb c := h2.symm
          _ ≤ Nearest (getB v) tb := ih c hszc (hcs c hc) v hvc

theorem mem_of_getLast?_eq {α : Type} :
    ∀ (m : List α) (x : α), m.getLast? = some x → x ∈ m := by
  intro m
  induction m with
  | nil => intro x hx; cases hx
  | cons c m ihm =>
    intro x hx
    cases m with
    | nil => simp at hx; subst hx; exact List.mem_cons_self _ _
    | cons e m2 =>
      rw [List.getLast?_cons_cons] at hx
      exact List.mem_cons_of_mem c (ihm x hx)

theorem sizeN_pos {V : Type} {n : ℕ} : ∀ t : RNode V n, 1 ≤ RNode.sizeN t := by
  intro t
  cases t <;> simp [RNode.sizeN]

theorem sizeNL_eq_sum {V : Type} {n : ℕ} :
    ∀ cs : List (RNode V n), RNode.sizeNL cs = (cs.map RNode.sizeN).sum := by
  intro cs
  induction cs with
  | nil => rfl
  | cons c cs ih => rw [RNode.sizeNL, ih]; simp

theorem leavesL_eq_flatMap {V : Type} {n : ℕ} :
    ∀ cs : List (RNode V n), RNode.leavesL cs = cs.flatMap RNode.leaves := by
  intro cs
  induction cs with
  | nil => rfl
  | cons c cs ih => rw [RNode.leavesL, ih, List.flatMap_cons]

/-! Branch equations of the best first loop. -/

theorem knnLoop_nil {V : Type} {n : ℕ} (getB : V → Box n) (tb : Box n) (K N : ℕ)
    (leafs : List (ℚ × V)) (tau : Option ℚ) :
    knnLoop getB tb K (N + 1) [] leafs tau = some leafs := rfl

theorem knnLoop_gate_false {V : Type} {n : ℕ} (getB : V → Box n) (tb : Box n)
    (K N : ℕ) (d : ℚ) (t : RNode V n) (rest : List (ℚ × RNode V n))
    (leafs : List (ℚ × V)) (tau : Option ℚ) (hgate : tauLe d tau = false) :
    knnLoop getB tb K (N + 1) ((d, t) :: rest) leafs tau =
      knnLoop getB tb K N rest leafs tau := by
  rw [knnLoop.eq_def]
  dsimp only
  rw [hgate, if_neg Bool.false_ne_true]

theorem knnLoop_page {V : Type} {n : ℕ} (getB : V → Box n) (tb : Box n)
    (K N : ℕ) (d : ℚ) (b : Option (Box n)) (cs : List (RNode V n))
    (rest : List (ℚ × RNode V n)) (leafs : List (ℚ × V)) (tau : Option ℚ)
    (hgate : tauLe d tau = true) :
    knnLoop getB tb K (N + 1) ((d, .page b cs) :: rest) leafs tau =
      knnLoop getB tb K N
        (cs.foldl (fun acc c => msetInsert (ndist getB tb c, c) acc) rest)
        leafs tau := by
  rw [knnLoop.eq_def]
  dsimp only
  rw [hgate, if_pos rfl]

theorem knnLoop_leaf_full {V : Type} {n : ℕ} (getB : V → Box n) (tb : Box n)
    (K N : ℕ) (d : ℚ) (v : V) (rest : List (ℚ × RNode V n))
    (leafs : List (ℚ × V)) (tau : Option ℚ) (pl : ℚ × V)
    (hgate : tauLe d tau = true)
    (hKle : K ≤ ((msetInsert (d, v) leafs).take K).length)
    (hlast : ((msetInsert (d, v) leafs).take K).getLast? = some pl) :
    knnLoop getB tb K (N + 1) ((d, .leaf v) :: rest) leafs tau =
      knnLoop getB tb K N rest ((msetInsert (d, v) leafs).take K) (some pl.1) := by
  rw [knnLoop.eq_def]
  dsimp only
  rw [hgate, if_pos rfl, if_pos hKle, hlast]

theorem knnLoop_leaf_small {V : Type} {n : ℕ} (getB : V → Box n) (tb : Box n)
    (K N : ℕ) (d : ℚ) (v : V) (rest : List (ℚ × RNode V n))
    (leafs : List (ℚ × V)) (tau : Option ℚ)
    (hgate : tauLe d tau = true)
    (hKgt : ¬ K ≤ ((msetInsert (d, v) leafs).take K).length) :
    knnLoop getB tb K (N + 1) ((d, .leaf v) :: rest) leafs tau =
      knnLoop getB tb K N rest ((msetInsert (d, v) leafs).take K) tau := by
  rw [knnLoop.eq_def]
  dsimp only
  rw [hgate, if_pos rfl, if_neg hKgt]

/-- The full invariant of the best first loop: with enough fuel, sorted and
well formed candidates, and a threshold consistent with the collected leaf
set, the loop succeeds; the result is sorted with true distances as keys,
holds at most K entries, and together with a discard list accounts exactly
for the stored values, every discarded value being at least as far as every
returned one. -/
theorem knnLoop_spec {V : Type} {n : ℕ} (getB : V → Box n) (tb : Box n) (K : ℕ)
    (hK : 1 ≤ K) :
    ∀ (fuel : ℕ) (cands : List (ℚ × RNode V n)) (leafs : List (ℚ × V))
      (tau : Option ℚ),
      (cands.map (fun p => RNode.sizeN p.2)).sum < fuel →
      (∀ p ∈ cands, p.1 = ndist getB tb p.2 ∧ WFb getB p.2 = true) →
      List.Pairwise (fun a b => a.1 ≤ b.1) cands →
      List.Pairwise (fun a b => a.1 ≤ b.1) leafs →
      (∀ q ∈ leafs, q.1 = Nearest (getB q.2) tb) →
      leafs.length ≤ K →
      (tau = none ∨ ∃ t0, tau = some t0 ∧ K ≤ leafs.length ∧ ∀ q ∈ leafs, q.1 ≤ t0) →
      ∃ res : List (ℚ × V),
        knnLoop getB tb K fuel cands leafs tau = some res ∧
        List.Pairwise (fun a b => a.1 ≤ b.1) res ∧
        (∀ q ∈ res, q.1 = Nearest (getB q.2) tb) ∧
        res.length ≤ K ∧
        (∀ t0, tau = some t0 → ∀ q ∈ res, q.1 ≤ t0) ∧
        ∃ D : List V,
          (res.map Prod.snd ++ D) ~
            (leafs.map Prod.snd ++ cands.flatMap (fun p => RNode.leaves p.2)) ∧
          (∀ w ∈ D, ∀ q ∈ res, q.1 ≤ Nearest (getB w) tb) ∧
          (res.length = K ∨ D = []) := by
  intro fuel
  induction fuel with
  | zero =>
    intro cands leafs tau hfuel
    exact absurd hfuel (Nat.not_lt_zero _)
  | succ N ih =>
    intro cands leafs tau hfuel h1 h2 h3 h4 h5 h6
    cases cands with
    | nil =>
      refine ⟨leafs, knnLoop_nil getB tb K N leafs tau, h3, h4, h5, ?_, [], ?_, ?_, Or.inr rfl⟩
      · intro t0 htau q hq
        rcases h6 with h6 | ⟨t1, htau1, -, hle⟩
        · rw [h6] at htau; cases htau
        · rw [htau1] at htau
          injection htau with htau
          subst htau
          exact hle q hq
      · simp
      · intro w hw; cases hw
    | cons p rest =>
      obtain ⟨d, t⟩ := p
      have hd : d = ndist getB tb t := (h1 (d, t) (List.mem_cons_self _ _)).1
      have hwt : WFb getB t = true := (h1 (d, t) (List.mem_cons_self _ _)).2
      have h1r : ∀ p ∈ rest, p.1 = ndist getB tb p.2 ∧ WFb getB p.2 = true :=
        fun p hp => h1 p (List.mem_cons_of_mem _ hp)
      have h2r := (List.pairwise_cons.mp h2).2
      have hfuelr : (rest.map (fun p => RNode.sizeN p.2)).sum < N := by
        have hpos := sizeN_pos t
        simp only [List.map_cons, List.sum_cons] at hfuel
        omega
      by_cases hgate : tauLe d tau = true
      · cases t with
        | leaf v =>
          have hdv : d = Nearest (getB v) tb := by
            rw [hd]
            simp [ndist, nbound]
          set L2 := (msetInsert (d, v) leafs).take K with hL2
          have hsort2 : List.Pairwise (fun a b => a.1 ≤ b.1) L2 :=
            List.Pairwise.sublist (List.take_sublist _ _) (msetInsert_sorted _ _ h3)
          have hmemins : ∀ q, q ∈ msetInsert (d, v) leafs → q.1 = Nearest (getB q.2) tb := by
            intro q hq2
            have hq3 : q ∈ (d, v) :: leafs := (msetInsert_perm _ _).mem_iff.mp hq2
            rcases List.mem_cons.mp hq3 with hq4 | hq4
            · rw [hq4]; exact hdv
            · exact h4 q hq4
          have hkeys2 : ∀ q ∈ L2, q.1 = Nearest (getB q.2) tb := by
            intro q hq
            exact hmemins q (List.mem_of_mem_take hq)
          have hlen2le : L2.length ≤ K := by
            rw [hL2, List.length_take]
            exact min_le_left _ _
          have hmlen : (msetInsert (d, v) leafs).length = leafs.length + 1 := by
            rw [(msetInsert_perm _ _).length_eq]
            simp
          by_cases hKle : K ≤ L2.length
          · -- the leaf set is full: a new threshold is installed
            have hlen2 : L2.length = K := le_antisymm hlen2le hKle
            rcases hlast : L2.getLast? with - | pl
            · exfalso
              rw [List.getLast?_eq_none] at hlast
              rw [hlast] at hlen2
              simp at hlen2
              omega
            have htle : ∀ q ∈ L2, q.1 ≤ pl.1 := sorted_key_le_getLast L2 pl hsort2 hlast
            obtain ⟨res, heq, c2, c3, c4, c5, D, hpermr, hcomp, hor⟩ :=
              ih rest L2 (some pl.1) hfuelr h1r h2r hsort2 hkeys2 (le_of_eq hlen2)
                (Or.inr ⟨pl.1, rfl, hKle, htle⟩)
            set dropped := (msetInsert (d, v) leafs).drop K with hdws
            have hsplit : L2 ++ dropped = msetInsert (d, v) leafs :=
              List.take_append_drop K _
            have hcross : ∀ x ∈ L2, ∀ y ∈ dropped, x.1 ≤ y.1 := by
              have hsor : List.Pairwise (fun a b => a.1 ≤ b.1) (L2 ++ dropped) := by
                rw [hsplit]
                exact msetInsert_sorted _ _ h3
              exact (List.pairwise_append.mp hsor).2.2
            have hdropkeys : ∀ w ∈ dropped, w.1 = Nearest (getB w.2) tb := by
              intro w hw
              apply hmemins
              rw [← hsplit]
              exact List.mem_append.mpr (Or.inr hw)
            have hplmem : pl ∈ L2 := mem_of_getLast?_eq L2 pl hlast
            refine ⟨res, ?_, c2, c3, c4, ?_, D ++ dropped.map Prod.snd, ?_, ?_, ?_⟩
            · rw [knnLoop_leaf_full getB tb K N d v rest leafs tau pl hgate hKle hlast]
              exact heq
            · intro t1 ht1 q hq
              have hqle : q.1 ≤ pl.1 := c5 pl.1 rfl q hq
              have hpl2 : pl ∈ (d, v) :: leafs :=
                (msetInsert_perm _ _).mem_iff.mp (List.mem_of_mem_take hplmem)
              have hplle : pl.1 ≤ t1 := by
                rcases h6 with h6 | ⟨t2, htau2, -, hle2⟩
                · rw [h6] at ht1; cases ht1
                · rw [htau2] at ht1
                  injection ht1 with ht1
                  subst ht1
                  rcases List.mem_cons.mp hpl2 with hp | hp
                  · rw [hp]
                    rw [htau2] at hgate
                    simpa [tauLe] using hgate
                  · exact hle2 pl hp
              exact le_trans hqle hplle
            · calc res.map Prod.snd ++ (D ++ dropped.map Prod.snd)
                  = (res.map Prod.snd ++ D) ++ dropped.map Prod.snd :=
                    (List.append_assoc _ _ _).symm
                _ ~ (L2.map Prod.snd ++
                      rest.flatMap (fun p => RNode.leaves p.2)) ++ dropped.map Prod.snd :=
                    hpermr.append_right _
                _ ~ (L2.map Prod.snd ++ dropped.map Prod.snd) ++
                      rest.flatMap (fun p => RNode.leaves p.2) := by
                    rw [List.append_assoc, List.append_assoc]
                    exact (List.perm_append_comm).append_left _
                _ = (msetInsert (d, v) leafs).map Prod.snd ++
                      rest.flatMap (fun p => RNode.leaves p.2) := by
                    rw [← List.map_append, hsplit]
                _ ~ ((d, v) :: leafs).map Prod.snd ++
                      rest.flatMap (fun p => RNode.leaves p.2) :=
                    ((msetInsert_perm _ _).map _).append_right _
                _ = v :: (leafs.map Prod.snd ++
                      rest.flatMap (fun p => RNode.leaves p.2)) := by simp
                _ ~ leafs.map Prod.snd ++ (v ::
                      rest.flatMap (fun p => RNode.leaves p.2)) := List.perm_middle.symm
                _ = leafs.map Prod.snd ++
                      ((d, RNode.leaf v) :: rest).flatMap (fun p => RNode.leaves p.2) := by
                    rw [List.flatMap_cons]
                    rfl
            · intro w hw q hq
              rcases List.mem_append.mp hw with hw | hw
              · exact hcomp w hw q hq
              · obtain ⟨wp, hwp, hwp2⟩ := List.mem_map.mp hw
                have hql : q.1 ≤ pl.1 := c5 pl.1 rfl q hq
                have hple : pl.1 ≤ wp.1 := hcross pl hplmem wp hwp
                have hwk : wp.1 = Nearest (getB wp.2) tb := hdropkeys wp hwp
                rw [← hwp2, ← hwk]
                exact le_trans hql hple
            · left
              rcases hor with hor | hor
              · exact hor
              · have hlenp := hpermr.length_eq
                rw [hor] at hlenp
                simp at hlenp
                omega
          · -- the leaf set is still short: no threshold change
            have hlt : L2.length < K := not_le.mp hKle
            have hfull : L2 = msetInsert (d, v) leafs := by
              rw [hL2]
              apply List.take_of_length_le
              by_contra hcon
              push_neg at hcon
              have : L2.length = K := by
                rw [hL2, List.length_take]
                exact min_eq_left (le_of_lt hcon)
              omega
            have hlen2 : L2.length = leafs.length + 1 := by rw [hfull, hmlen]
            have h6b : tau = none ∨ ∃ t0, tau = some t0 ∧ K ≤ L2.length ∧
                ∀ q ∈ L2, q.1 ≤ t0 := by
              rcases h6 with h6 | ⟨t0, htau0, hKl, -⟩
              · exact Or.inl h6
              · exfalso; omega
            obtain ⟨res, heq, c2, c3, c4, c5, D, hpermr, hcomp, hor⟩ :=
              ih rest L2 tau hfuelr h1r h2r hsort2 hkeys2 (le_of_lt hlt) h6b
            refine ⟨res, ?_, c2, c3, c4, c5, D, ?_, hcomp, hor⟩
            · rw [knnLoop_leaf_small getB tb K N d v rest leafs tau hgate hKle]
              exact heq
            · calc res.map Prod.snd ++ D
                  ~ L2.map Prod.snd ++ rest.flatMap (fun p => RNode.leaves p.2) := hpermr
                _ = (msetInsert (d, v) leafs).map Prod.snd ++
                      rest.flatMap (fun p => RNode.leaves p.2) := by rw [hfull]
                _ ~ ((d, v) :: leafs).map Prod.snd ++
                      rest.flatMap (fun p => RNode.leaves p.2) :=
                    ((msetInsert_perm _ _).map _).append_right _
                _ = v :: (leafs.map Prod.snd ++
                      rest.flatMap (fun p => RNode.leaves p.2)) := by simp
                _ ~ leafs.map Prod.snd ++ (v ::
                      rest.flatMap (fun p => RNode.leaves p.2)) := List.perm_middle.symm
                _ = leafs.map Prod.snd ++
                      ((d, RNode.leaf v) :: rest).flatMap (fun p => RNode.leaves p.2) := by
                    rw [List.flatMap_cons]
                    rfl
        | page b cs =>
          have hwcs : ∀ c ∈ cs, WFb getB c = true :=
            ((WFb_page_iff getB b cs).mp hwt).2
          set cands2 := cs.foldl (fun acc c => msetInsert (ndist getB tb c, c) acc) rest
            with hc2
          have hpermc : cands2 ~ cs.map (fun c => (ndist getB tb c, c)) ++ rest :=
            foldl_msetInsert_perm _ cs rest
          have h1b : ∀ p ∈ cands2, p.1 = ndist getB tb p.2 ∧ WFb getB p.2 = true := by
            intro p hp
            rcases List.mem_append.mp (hpermc.mem_iff.mp hp) with hp | hp
            · obtain ⟨c, hc, hcp⟩ := List.mem_map.mp hp
              rw [← hcp]
              exact ⟨rfl, hwcs c hc⟩
            · exact h1r p hp
          have h2b : List.Pairwise (fun a b => a.1 ≤ b.1) cands2 :=
            foldl_msetInsert_sorted _ cs rest h2r
          have hfuelb : (cands2.map (fun p => RNode.sizeN p.2)).sum < N := by
            have hs := (hpermc.map (fun p => RNode.sizeN p.2)).sum_eq
            rw [List.map_append, List.sum_append, List.map_map] at hs
            have hcsmap : (cs.map ((fun p => RNode.sizeN p.2) ∘
                (fun c => (ndist getB tb c, c)))).sum = RNode.sizeNL cs := by
              rw [sizeNL_eq_sum]
              rfl
            rw [hcsmap] at hs
            simp only [List.map_cons, List.sum_cons] at hfuel
            have hsz : RNode.sizeN (RNode.page b cs) = 1 + RNode.sizeNL cs := rfl
            rw [hsz] at hfuel
            omega
          obtain ⟨res, heq, c2, c3, c4, c5, D, hpermr, hcomp, hor⟩ :=
            ih cands2 leafs tau hfuelb h1b h2b h3 h4 h5 h6
          refine ⟨res, ?_, c2, c3, c4, c5, D, ?_, hcomp, hor⟩
          · rw [knnLoop_page getB tb K N d b cs rest leafs tau hgate]
            exact heq
          · calc res.map Prod.snd ++ D
                ~ leafs.map Prod.snd ++
                    cands2.flatMap (fun p => RNode.leaves p.2) := hpermr
              _ ~ leafs.map Prod.snd ++
                    ((cs.map (fun c => (ndist getB tb c, c)) ++ rest).flatMap
                      (fun p => RNode.leaves p.2)) :=
                  (perm_flatMap _ hpermc).append_left _
              _ = leafs.map Prod.snd ++
                    (cs.flatMap RNode.leaves ++
                      rest.flatMap (fun p => RNode.leaves p.2)) := by
                  rw [List.flatMap_append, List.flatMap_map]
              _ = leafs.map Prod.snd ++
                    ((d, RNode.page b cs) :: rest).flatMap (fun p => RNode.leaves p.2) := by
                  rw [List.flatMap_cons]
                  rw [show RNode.leaves (RNode.page b cs) = RNode.leavesL cs from rfl,
                    leavesL_eq_flatMap]
      · -- the candidate is beyond the threshold: its whole subtree is discarded
        rcases h6 with h6none | ⟨t0, htau, hKlen, hleafsle⟩
        · exfalso
          rw [h6none] at hgate
          exact hgate rfl
        subst htau
        have hdgt : t0 < d := by
          by_contra hcon
          push_neg at hcon
          exact hgate (by simp [tauLe, hcon])
        obtain ⟨res, heq, c2, c3, c4, c5, D, hpermr, hcomp, hor⟩ :=
          ih rest leafs (some t0) hfuelr h1r h2r h3 h4 h5
            (Or.inr ⟨t0, rfl, hKlen, hleafsle⟩)
        have hgatef : tauLe d (some t0) = false := by
          rcases hb : tauLe d (some t0) with - | -
          · rfl
          · exact absurd hb hgate
        refine ⟨res, ?_, c2, c3, c4, c5, D ++ RNode.leaves t, ?_, ?_, ?_⟩
        · rw [knnLoop_gate_false getB tb K N d t rest leafs (some t0) hgatef]
          exact heq
        · calc res.map Prod.snd ++ (D ++ RNode.leaves t)
              = (res.map Prod.snd ++ D) ++ RNode.leaves t :=
                (List.append_assoc _ _ _).symm
            _ ~ (leafs.map Prod.snd ++
                  rest.flatMap (fun p => RNode.leaves p.2)) ++ RNode.leaves t :=
                hpermr.append_right _
            _ ~ leafs.map Prod.snd ++ (RNode.leaves t ++
                  rest.flatMap (fun p => RNode.leaves p.2)) := by
                rw [List.append_assoc]
                exact (List.perm_append_comm).append_left _
            _ = leafs.map Prod.snd ++
                  ((d, t) :: rest).flatMap (fun p => RNode.leaves p.2) := by
                rw [List.flatMap_cons]
        · intro w hw q hq
          rcases List.mem_append.mp hw with hw | hw
          · exact hcomp w hw q hq
          · have hql : q.1 ≤ t0 := c5 t0 rfl q hq
            have hdle : ndist getB tb t ≤ Nearest (getB w) tb :=
              ndist_le_leaf getB tb (RNode.sizeN t) t le_rfl hwt w hw
            calc q.1 ≤ t0 := hql
              _ ≤ d := le_of_lt hdgt
              _ = ndist getB tb t := hd
              _ ≤ Nearest (getB w) tb := hdle
        · rcases hor with hor | hor
          · exact Or.inl hor
          · left
            have hlenp := hpermr.length_eq
            rw [hor] at hlenp
            simp at hlenp
            omega

/-- C1, amended with K ≥ 1: on a well formed tree the distance query
Nearest(t, K) succeeds and returns min(K, |S|) stored values — a submultiset
of the stored multiset S — in nondecreasing order of the squared Euclidean
box distance to the target, and every stored value left out lies at least
as far as every returned one (for K = 0 with a stored value the source
dereferences crbegin() of an empty set, see the counterexample). -/
theorem claim_C1 {V : Type} [DecidableEq V] {n : ℕ} (getB : V → Box n) (tb : Box n)
    (K : ℕ) (root : Option (RNode V n)) (hK : 1 ≤ K)
    (hroot : ∀ t, root = some t → WFb getB t = true) :
    ∃ (out : List V) (S : List V),
      S = (match root with | none => ([] : List V) | some t => RNode.leaves t) ∧
      knnQuery getB root tb K = some out ∧
      out.length = Min.min K S.length ∧
      (↑out : Multiset V) ≤ ↑S ∧
      List.Pairwise (fun a b => Nearest (getB a) tb ≤ Nearest (getB b) tb) out ∧
      ∀ w ∈ ((↑S : Multiset V) - (↑out : Multiset V)),
        ∀ u ∈ out, Nearest (getB u) tb ≤ Nearest (getB w) tb := by
  cases root with
  | none =>
    refine ⟨[], [], rfl, rfl, by simp, by simp, by simp, ?_⟩
    intro w hw u hu
    cases hu
  | some t =>
    have hwt := hroot t rfl
    obtain ⟨res, heq, c2, c3, c4, c5, D, hperm, hcomp, hor⟩ :=
      knnLoop_spec getB tb K hK (RNode.sizeN t + 1) [(ndist getB tb t, t)] [] none
        (by simp)
        (by
          intro p hp
          simp at hp
          subst hp
          exact ⟨rfl, hwt⟩)
        (by simp) (by simp) (by intro q hq; cases hq) (by simp) (Or.inl rfl)
    simp only [List.map_nil, List.nil_append, List.flatMap_cons, List.flatMap_nil,
      List.append_nil] at hperm
    have hq : knnQuery getB (some t) tb K = some (res.map Prod.snd) := by
      rw [knnQuery, heq]
      rfl
    have hlens : res.length + D.length = (RNode.leaves t).length := by
      have := hperm.length_eq
      simpa using this
    have hms : (↑(res.map Prod.snd) : Multiset V) + ↑D = ↑(RNode.leaves t) := by
      rw [Multiset.coe_add]
      exact Multiset.coe_eq_coe.mpr hperm
    refine ⟨res.map Prod.snd, RNode.leaves t, rfl, hq, ?_, ?_, ?_, ?_⟩
    · simp only [List.length_map]
      rcases hor with hor | hor
      · omega
      · rw [hor] at hlens
        simp at hlens
        omega
    · rw [← hms]
      exact Multiset.le_add_right _ _
    · rw [List.pairwise_map]
      apply c2.imp_of_mem
      intro a b ha hb hab
      rw [← c3 a ha, ← c3 b hb]
      exact hab
    · intro w hw u hu
      have hD : (↑(RNode.leaves t) : Multiset V) - (↑(res.map Prod.snd) : Multiset V) =
          (↑D : Multiset V) := by
        rw [← hms]
        exact add_tsub_cancel_left _ _
      rw [hD, Multiset.mem_coe] at hw
      obtain ⟨q, hqres, hq2⟩ := List.mem_map.mp hu
      rw [← hq2, ← c3 q hqres]
      exact hcomp w hw q hqres

/-- Witness for C1 at K = 1 on a one leaf tree: the query succeeds and
returns exactly one value. -/
theorem claim_C1_witness :
    ∃ out : List (Box 1),
      knnQuery (fun b => b) (some (.leaf (⟨fun _ => 0, fun _ => 1⟩ : Box 1)))
        (⟨fun _ => 0, fun _ => 1⟩ : Box 1) 1 = some out ∧ out.length = 1 := by
  obtain ⟨out, S, hS, hq, hlen, -, -, -⟩ :=
    claim_C1 (fun b : Box 1 => b) ⟨fun _ => 0, fun _ => 1⟩ 1
      (some (.leaf ⟨fun _ => 0, fun _ => 1⟩)) le_rfl
      (fun t ht => by injection ht with ht; subst ht; rfl)
  refine ⟨out, hq, ?_⟩
  rw [hlen, hS]
  rfl

/-- Counterexample to C1 as stated at K = 0: with one stored value the
source reads crbegin() of an empty truncated set (the model returns none),
instead of returning min(0, 1) = 0 values. -/
theorem claim_C1_counterexample :
    knnQuery (fun b => b) (some (.leaf (⟨fun _ => 0, fun _ => 1⟩ : Box 1)))
      (⟨fun _ => 0, fun _ => 1⟩ : Box 1) 0 = none := rfl

/-! ### Claim C8: UniqueMap round trip -/

theorem zip_map_self {α β : Type} (f : α → β) :
    ∀ l : List α, l.zip (l.map f) = l.map (fun a => (a, f a)) := by
  intro l
  induction l with
  | nil => rfl
  | cons a l ih => simp [ih]

theorem foldl_set_length {κ : Type} :
    ∀ (ps : List (ℕ × κ)) (acc : List κ),
      (ps.foldl (fun a q => a.set q.1 q.2) acc).length = acc.length := by
  intro ps
  induction ps with
  | nil => intro acc; rfl
  | cons q ps ih =>
    intro acc
    simp only [List.foldl_cons]
    rw [ih, List.length_set]

theorem foldl_set_getElem_not_mem {κ : Type} :
    ∀ (ps : List (ℕ × κ)) (acc : List κ) (p : ℕ), p ∉ ps.map Prod.fst →
      (ps.foldl (fun a q => a.set q.1 q.2) acc)[p]? = acc[p]? := by
  intro ps
  induction ps with
  | nil => intro acc p _; rfl
  | cons q ps ih =>
    intro acc p hp
    simp only [List.map_cons, List.mem_cons] at hp
    push_neg at hp
    simp only [List.foldl_cons]
    rw [ih _ p hp.2, List.getElem?_set_ne (fun h => hp.1 h.symm)]

theorem foldl_set_getElem_mem {κ : Type} :
    ∀ (ps : List (ℕ × κ)) (acc : List κ) (p : ℕ) (x : κ),
      (ps.map Prod.fst).Nodup → (p, x) ∈ ps → p < acc.length →
      (ps.foldl (fun a q => a.set q.1 q.2) acc)[p]? = some x := by
  intro ps
  induction ps with
  | nil => intro acc p x _ hm; cases hm
  | cons q ps ih =>
    intro acc p x hnd hm hlt
    simp only [List.map_cons, List.nodup_cons] at hnd
    simp only [List.foldl_cons]
    rcases List.mem_cons.mp hm with hm | hm
    · subst hm
      have hnot : (p : ℕ) ∉ ps.map Prod.fst := hnd.1
      rw [foldl_set_getElem_not_mem ps _ p hnot]
      exact List.getElem?_set_self hlt
    · have hp : p ∈ ps.map Prod.fst := List.mem_map.mpr ⟨(p, x), hm, rfl⟩
      exact ih _ p x hnd.2 hm (by rw [List.length_set]; exact hlt)

theorem foldl_setD_length {κ : Type} [Inhabited κ] :
    ∀ (d : List (ℕ × ℕ)) (acc : List κ),
      (d.foldl (fun a q => a.set q.1 (a.getD q.2 default)) acc).length = acc.length := by
  intro d
  induction d with
  | nil => intro acc; rfl
  | cons q d ih =>
    intro acc
    simp only [List.foldl_cons]
    rw [ih, List.length_set]

/-- The duplicate copy loop of expand_to_non_unique: once the accumulator
agrees with the original vector on every representative position, each copy
writes the original value at its duplicate position. -/
theorem foldl_dup_writes {κ : Type} [Inhabited κ] (V : List κ) (u : List ℕ)
    (hult : ∀ j ∈ u, j < V.length) :
    ∀ (d : List (ℕ × ℕ)) (acc : List κ),
      acc.length = V.length →
      (∀ j ∈ u, acc[j]? = V[j]?) →
      (∀ pr ∈ d, V[pr.1]? = V[pr.2]? ∧ pr.2 ∈ u ∧ pr.1 < V.length ∧ pr.1 ∉ u) →
      ∀ p, (acc[p]? = V[p]? ∨ p ∈ d.map Prod.fst) →
        (d.foldl (fun a q => a.set q.1 (a.getD q.2 default)) acc)[p]? = V[p]? := by
  intro d
  induction d with
  | nil =>
    intro acc _ _ _ p hp
    rcases hp with hp | hp
    · exact hp
    · cases hp
  | cons pr d ih =>
    intro acc hlen hu hd p hp
    obtain ⟨hVeq, hru, hplt, hpnu⟩ := hd pr (List.mem_cons_self pr d)
    have hlen2 : (acc.set pr.1 (acc.getD pr.2 default)).length = V.length := by
      rw [List.length_set]; exact hlen
    have hset : (acc.set pr.1 (acc.getD pr.2 default))[pr.1]? = V[pr.1]? := by
      rw [List.getElem?_set_self (by rw [hlen]; exact hplt)]
      have hr2 : pr.2 < V.length := hult pr.2 hru
      rw [List.getD_eq_getElem?_getD, hu pr.2 hru, List.getElem?_eq_getElem hr2]
      rw [hVeq, List.getElem?_eq_getElem hr2]
      rfl
    have hu2 : ∀ j ∈ u, (acc.set pr.1 (acc.getD pr.2 default))[j]? = V[j]? := by
      intro j hj
      rw [List.getElem?_set_ne (fun h => hpnu (by rw [h]; exact hj))]
      exact hu j hj
    have hd2 : ∀ q ∈ d, V[q.1]? = V[q.2]? ∧ q.2 ∈ u ∧ q.1 < V.length ∧ q.1 ∉ u :=
      fun q hq => hd q (List.mem_cons_of_mem pr hq)
    simp only [List.foldl_cons]
    apply ih _ hlen2 hu2 hd2
    rcases hp with hp | hp
    · by_cases hpp : p = pr.1
      · subst hpp
        exact Or.inl hset
      · left
        rw [List.getElem?_set_ne (fun h => hpp h.symm)]
        exact hp
    · simp only [List.map_cons, List.mem_cons] at hp
      rcases hp with hp | hp
      · subst hp
        exact Or.inl hset
      · exact Or.inr hp

/-- The scan loop of UniqueMap::setup: the unique positions and the
duplicate positions together are exactly the scanned index range, and every
recorded pair (duplicate, representative) has equal values in the original
vector with the representative either already in the map or among the
unique positions. -/
theorem setupGo_spec {κ : Type} [DecidableEq κ] [Inhabited κ] (V : List κ) :
    ∀ (vs : List κ) (i : ℕ) (m : List (κ × ℕ)),
      V.drop i = vs →
      (∀ kv ∈ m, V[kv.2]? = some kv.1) →
      ((setupGo m i vs).1 ++ (setupGo m i vs).2.map Prod.fst) ~
          List.range' i vs.length ∧
        (∀ pr ∈ (setupGo m i vs).2, V[pr.1]? = V[pr.2]? ∧
          ((∃ kv ∈ m, kv.2 = pr.2) ∨ pr.2 ∈ (setupGo m i vs).1)) := by
  intro vs
  induction vs with
  | nil =>
    intro i m _ _
    constructor
    · simp [setupGo]
    · intro pr hpr
      simp [setupGo] at hpr
  | cons v vs ih =>
    intro i m hdrop hm
    have hVi : V[i]? = some v := by
      have := List.getElem?_drop V i 0
      rw [hdrop] at this
      simpa using this.symm
    have hdrop2 : V.drop (i + 1) = vs := by
      have h1 : List.drop 1 (List.drop i V) = List.drop (i + 1) V :=
        List.drop_drop 1 i V
      rw [hdrop] at h1
      simpa using h1.symm
    rw [setupGo]
    rcases hff : findFirst? m v with - | rep
    · dsimp only
      have hm2 : ∀ kv ∈ m ++ [(v, i)], V[kv.2]? = some kv.1 := by
        intro kv hkv
        rcases List.mem_append.mp hkv with hkv | hkv
        · exact hm kv hkv
        · simp at hkv
          subst hkv
          exact hVi
      obtain ⟨hperm, hpairs⟩ := ih (i + 1) (m ++ [(v, i)]) hdrop2 hm2
      constructor
      · simp only [List.length_cons, List.range'_succ, List.cons_append]
        exact hperm.cons i
      · intro pr hpr
        obtain ⟨hVeq, hsrc⟩ := hpairs pr hpr
        refine ⟨hVeq, ?_⟩
        rcases hsrc with ⟨kv, hkv, hkv2⟩ | hsrc
        · rcases List.mem_append.mp hkv with hkv | hkv
          · exact Or.inl ⟨kv, hkv, hkv2⟩
          · simp at hkv
            subst hkv
            right
            rw [← hkv2]
            exact List.mem_cons_self _ _
        · exact Or.inr (List.mem_cons_of_mem i hsrc)
    · dsimp only
      obtain ⟨hperm, hpairs⟩ := ih (i + 1) m hdrop2 hm
      have hrep : ∃ kv ∈ m, kv.2 = rep ∧ kv.1 = v := by
        rcases hfind : m.find? (fun e => decide (e.1 = v)) with - | e
        · rw [findFirst?, hfind] at hff; cases hff
        · rw [findFirst?, hfind] at hff
          simp only [Option.map_some'] at hff
          injection hff with hff
          refine ⟨e, List.mem_of_find?_eq_some hfind, hff, ?_⟩
          have := List.find?_some hfind
          simpa using this
      constructor
      · simp only [List.length_cons, List.range'_succ, List.map_cons]
        calc (setupGo m (i + 1) vs).1 ++ i :: (setupGo m (i + 1) vs).2.map Prod.fst
            ~ i :: ((setupGo m (i + 1) vs).1 ++
                (setupGo m (i + 1) vs).2.map Prod.fst) := List.perm_middle
          _ ~ i :: List.range' (i + 1) vs.length := hperm.cons i
      · intro pr hpr
        rcases List.mem_cons.mp hpr with hpr | hpr
        · subst hpr
          obtain ⟨kv, hkv, hkv2, hkv1⟩ := hrep
          constructor
          · show V[i]? = V[rep]?
            have := hm kv hkv
            rw [hkv1, hkv2] at this
            rw [hVi, this]
          · exact Or.inl ⟨kv, hkv, hkv2⟩
        · obtain ⟨hVeq, hsrc⟩ := hpairs pr hpr
          exact ⟨hVeq, hsrc⟩

/-- C8: after UniqueMap::setup on an input vector, expanding the reduction
of that vector reproduces it exactly: every representative position receives
its own value through the unique scatter, and every duplicate position
receives the value of its first occurrence representative. -/
theorem claim_C8 {κ : Type} [DecidableEq κ] [Inhabited κ] (V : List κ) :
    expand_to_non_unique (uniqueSetup V).1 (uniqueSetup V).2
      (reduce_to_unique (uniqueSetup V).1 V) = V := by
  obtain ⟨hperm, hpairs0⟩ := setupGo_spec V V 0 [] (by simp) (by intro kv hkv; cases hkv)
  rw [uniqueSetup]
  set u := (setupGo ([] : List (κ × ℕ)) 0 V).1 with hu
  set d := (setupGo ([] : List (κ × ℕ)) 0 V).2 with hd
  have hpairs : ∀ pr ∈ d, V[pr.1]? = V[pr.2]? ∧ pr.2 ∈ u := by
    intro pr hpr
    obtain ⟨hVeq, hsrc⟩ := hpairs0 pr hpr
    refine ⟨hVeq, ?_⟩
    rcases hsrc with ⟨kv, hkv, -⟩ | hsrc
    · cases hkv
    · exact hsrc
  have hlen : u.length + d.length = V.length := by
    have := hperm.length_eq
    simpa using this
  have hnodup : (u ++ d.map Prod.fst).Nodup :=
    (hperm.nodup_iff).mpr (List.nodup_range' 0 V.length)
  obtain ⟨hu_nd, hdm_nd, hdisj⟩ := List.nodup_append.mp hnodup
  have humem : ∀ j ∈ u, j < V.length := by
    intro j hj
    have : j ∈ List.range' 0 V.length :=
      hperm.mem_iff.mp (List.mem_append.mpr (Or.inl hj))
    simpa using (List.mem_range'_1.mp this).2
  have hdmem : ∀ p ∈ d.map Prod.fst, p < V.length := by
    intro p hp
    have : p ∈ List.range' 0 V.length :=
      hperm.mem_iff.mp (List.mem_append.mpr (Or.inr hp))
    simpa using (List.mem_range'_1.mp this).2
  have hcover : ∀ p, p < V.length → p ∈ u ∨ p ∈ d.map Prod.fst := by
    intro p hp
    have : p ∈ List.range' 0 V.length := List.mem_range'_1.mpr ⟨Nat.zero_le p, by simpa using hp⟩
    exact List.mem_append.mp (hperm.mem_iff.mpr this)
  rw [expand_to_non_unique, reduce_to_unique]
  rw [zip_map_self (fun j => V.getD j default) u]
  set ps := u.map (fun j => (j, V.getD j default)) with hps
  set out0 := List.replicate (u.length + d.length) (default : κ) with hout0
  set out1 := ps.foldl (fun a q => a.set q.1 q.2) out0 with hout1
  have hout0len : out0.length = V.length := by
    rw [hout0, List.length_replicate, hlen]
  have hout1len : out1.length = V.length := by
    rw [hout1, foldl_set_length, hout0len]
  have hpsfst : ps.map Prod.fst = u := by
    rw [hps, List.map_map]
    exact List.map_id u
  have hout1u : ∀ j ∈ u, out1[j]? = V[j]? := by
    intro j hj
    have hlt : j < out0.length := by rw [hout0len]; exact humem j hj
    have hmem : (j, V.getD j default) ∈ ps :=
      List.mem_map.mpr ⟨j, hj, rfl⟩
    rw [hout1, foldl_set_getElem_mem ps out0 j (V.getD j default)
      (by rw [hpsfst]; exact hu_nd) hmem hlt]
    rw [List.getD_eq_getElem?_getD, List.getElem?_eq_getElem (humem j hj)]
    rfl
  have hdfacts : ∀ pr ∈ d, V[pr.1]? = V[pr.2]? ∧ pr.2 ∈ u ∧ pr.1 < V.length ∧
      pr.1 ∉ u := by
    intro pr hpr
    obtain ⟨hVeq, hru⟩ := hpairs pr hpr
    have hp1 : pr.1 ∈ d.map Prod.fst := List.mem_map.mpr ⟨pr, hpr, rfl⟩
    exact ⟨hVeq, hru, hdmem pr.1 hp1, List.disjoint_right.mp hdisj hp1⟩
  apply List.ext_getElem?
  intro p
  by_cases hp : p < V.length
  · apply foldl_dup_writes V u humem d out1 hout1len hout1u hdfacts
    rcases hcover p hp with hc | hc
    · exact Or.inl (hout1u p hc)
    · exact Or.inr hc
  · rw [List.getElem?_eq_none (by omega : V.length ≤ p)]
    rw [List.getElem?_eq_none]
    rw [foldl_setD_length, hout1len]
    omega

end HOPI
